import Mathlib

/-!
Verification of the git-2-jira "dev pulse" analysis pipeline.

This file gives a shallow embedding, in Lean 4, of the algorithmic core of
the repository: issue-key extraction and the commit window of the history
miner (`backend/api/services/git_analyzer.py`), the ticket suggester
(`backend/api/services/ticket_suggester.py`), the repository scanner
(`backend/api/services/folder_scanner.py`), JQL sanitization and project-key
validation of the Jira client (`backend/api/services/jira_client.py`), the
batch analysis route (`backend/api/routes/folders.py`), and the analysis
cache referenced by the routes.  Python `datetime` values are embedded as
Unix epoch seconds (`Int`), machine integers as `Nat`/`Int` with explicit
`% 2 ^ 32` where the source overflows, and Python regular expressions as
executable scanners specialized to the concrete patterns of the source.
-/

set_option maxRecDepth 10000

/-! ### Character classes (ASCII embedding of the Python regex classes) -/

/-- `[A-Z]` -/
def isUpperAZ (c : Char) : Bool := 65 ≤ c.toNat && c.toNat ≤ 90

/-- `[a-z]` -/
def isLowerAZ (c : Char) : Bool := 97 ≤ c.toNat && c.toNat ≤ 122

/-- `[0-9]` (`\d` in the patterns of this code base) -/
def isDigit09 (c : Char) : Bool := 48 ≤ c.toNat && c.toNat ≤ 57

/-- `[A-Z0-9]`, the class after the leading letter in `JIRA_REF_PATTERN`. -/
def isKeyChar (c : Char) : Bool := isUpperAZ c || isDigit09 c

/-- `\w`, the regex word class used by `\b` word boundaries. -/
def isWordChar (c : Char) : Bool :=
  isUpperAZ c || isLowerAZ c || isDigit09 c || c.toNat = 95

/-- ASCII lowercasing, embedding `re.IGNORECASE` matching and `str.lower`. -/
def lowerChar (c : Char) : Char :=
  if isUpperAZ c then Char.ofNat (c.toNat + 32) else c

/-- Characters removed by `re.sub(r"[\x00-\x1f\x7f]", "", value)`. -/
def isControlChar (c : Char) : Bool := c.toNat ≤ 0x1f || c.toNat = 0x7f

/-- The three characters escaped by `_sanitize_jql_text`:
backslash, double quote, single quote. -/
def isSpecialJql (c : Char) : Bool := c.toNat = 92 || c.toNat = 34 || c.toNat = 39

/-- ASCII whitespace as trimmed by Python `str.strip()`. -/
def isPySpace (c : Char) : Bool :=
  c.toNat = 32 || (9 ≤ c.toNat && c.toNat ≤ 13)

/-! ### Python string primitives -/

/-- Python `str.strip()` on a character list. -/
def pyStripList (l : List Char) : List Char :=
  ((l.dropWhile isPySpace).reverse.dropWhile isPySpace).reverse

/-- Python `str.strip()`. -/
def pyStrip (s : String) : String := String.mk (pyStripList s.data)

/-- Python `str.lower()` (ASCII). -/
def pyLower (s : String) : String := String.mk (s.data.map lowerChar)

/-- Contiguous-sublist test on character lists. -/
def listInfix : List Char → List Char → Bool
  | needle, [] => needle.isEmpty
  | needle, c :: rest => needle.isPrefixOf (c :: rest) || listInfix needle rest

/-- Python `in` substring test (`needle in hay`). -/
def containsSub (hay needle : String) : Bool := listInfix needle.data hay.data

/-- Python `s.split("\n")[0]`: the text up to the first newline. -/
def firstLine (s : String) : String :=
  String.mk (s.data.takeWhile (fun c => c ≠ Char.ofNat 10))

/-- Python `s[:n]` on strings (character slicing). -/
def pyTake (s : String) (n : Nat) : String := String.mk (s.data.take n)

/-- Python `s.startswith(p)` (ASCII). -/
def pyStartsWith (s p : String) : Bool := p.data.isPrefixOf s.data

/-- Python `str.replace(old, new)` for a single replacement pass, scanning
left to right over non-overlapping occurrences. -/
def replaceAllAux : Nat → List Char → List Char → List Char → List Char
  | 0, _, _, _ => []
  | _ + 1, [], _, _ => []
  | fuel + 1, c :: rest, old, new =>
    if old.isPrefixOf (c :: rest) ∧ old ≠ [] then
      new ++ replaceAllAux fuel ((c :: rest).drop old.length) old new
    else
      c :: replaceAllAux fuel rest old new

/-- Python `str.replace(old, new)`. -/
def pyReplace (s old new : String) : String :=
  String.mk (replaceAllAux s.data.length s.data old.data new.data)

/-- Python `str(n)` for naturals. -/
def natStr (n : Nat) : String := toString n

/-- Zero-padded decimal of fixed minimal width (for `%02d`-style output). -/
def padNat (width : Nat) (n : Nat) : String :=
  let s := natStr n
  String.mk (List.replicate (width - s.data.length) '0') ++ s

/-! ### SHA-256 (`hashlib.sha256(...).hexdigest()`), over `Nat % 2^32` -/

/-- 2^32, the word modulus of SHA-256. -/
def w32 : Nat := 4294967296

/-- Truncate to a 32-bit word. -/
def m32 (x : Nat) : Nat := x % w32

/-- Right rotation of a 32-bit word. -/
def rotr32 (n x : Nat) : Nat := m32 ((x >>> n) ||| (x <<< (32 - n)))

/-- SHA-256 small sigma 0. -/
def ssig0 (x : Nat) : Nat := (rotr32 7 x) ^^^ (rotr32 18 x) ^^^ (x >>> 3)

/-- SHA-256 small sigma 1. -/
def ssig1 (x : Nat) : Nat := (rotr32 17 x) ^^^ (rotr32 19 x) ^^^ (x >>> 10)

/-- SHA-256 big sigma 0. -/
def bsig0 (x : Nat) : Nat := (rotr32 2 x) ^^^ (rotr32 13 x) ^^^ (rotr32 22 x)

/-- SHA-256 big sigma 1. -/
def bsig1 (x : Nat) : Nat := (rotr32 6 x) ^^^ (rotr32 11 x) ^^^ (rotr32 25 x)

/-- SHA-256 round constants. -/
def sha256K : List Nat :=
  [1116352408, 1899447441, 3049323471, 3921009573, 961987163, 1508970993,
   2453635748, 2870763221, 3624381080, 310598401, 607225278, 1426881987,
   1925078388, 2162078206, 2614888103, 3248222580, 3835390401, 4022224774,
   264347078, 604807628, 770255983, 1249150122, 1555081692, 1996064986,
   2554220882, 2821834349, 2952996808, 3210313671, 3336571891, 3584528711,
   113926993, 338241895, 666307205, 773529912, 1294757372, 1396182291,
   1695183700, 1986661051, 2177026350, 2456956037, 2730485921, 2820302411,
   3259730800, 3345764771, 3516065817, 3600352804, 4094571909, 275423344,
   430227734, 506948616, 659060556, 883997877, 958139571, 1322822218,
   1537002063, 1747873779, 1955562222, 2024104815, 2227730452, 2361852424,
   2428436474, 2756734187, 3204031479, 3329325298]

/-- SHA-256 initial hash value. -/
structure Sha256State where
  a : Nat
  b : Nat
  c : Nat
  d : Nat
  e : Nat
  f : Nat
  g : Nat
  h : Nat

/-- The SHA-256 initialization vector. -/
def sha256IV : Sha256State :=
  ⟨1779033703, 3144134277, 1013904242, 2773480762,
   1359893119, 2600822924, 528734635, 1541459225⟩

/-- UTF-8 encoding of one character (`str.encode()`), bytes as `Nat`. -/
def utf8EncodeChar (c : Char) : List Nat :=
  let n := c.toNat
  if n < 0x80 then [n]
  else if n < 0x800 then
    [0xC0 ||| (n >>> 6), 0x80 ||| (n &&& 0x3F)]
  else if n < 0x10000 then
    [0xE0 ||| (n >>> 12), 0x80 ||| ((n >>> 6) &&& 0x3F), 0x80 ||| (n &&& 0x3F)]
  else
    [0xF0 ||| (n >>> 18), 0x80 ||| ((n >>> 12) &&& 0x3F),
     0x80 ||| ((n >>> 6) &&& 0x3F), 0x80 ||| (n &&& 0x3F)]

/-- UTF-8 bytes of a string (`str.encode()`). -/
def utf8Bytes (s : String) : List Nat := s.data.flatMap utf8EncodeChar

/-- Big-endian bytes of a `Nat`, fixed width. -/
def beBytes (width : Nat) (n : Nat) : List Nat :=
  (List.range width).map (fun i => (n >>> (8 * (width - 1 - i))) % 256)

/-- SHA-256 padding: append `0x80`, zeros, and the 64-bit bit length. -/
def sha256Pad (msg : List Nat) : List Nat :=
  let L := msg.length
  let padLen := (64 + 55 - (L % 64)) % 64
  msg ++ [0x80] ++ List.replicate padLen 0 ++ beBytes 8 (8 * L)

/-- Split a byte list into 64-byte blocks, fuel-based recursion. -/
def chunk64Aux : Nat → List Nat → List (List Nat)
  | 0, _ => []
  | _ + 1, [] => []
  | fuel + 1, c :: rest => (c :: rest).take 64 :: chunk64Aux fuel ((c :: rest).drop 64)

/-- Split a byte list into 64-byte blocks (the padded length is a multiple
of 64). -/
def chunk64 (l : List Nat) : List (List Nat) := chunk64Aux l.length l

/-- Assemble a big-endian 32-bit word from four bytes. -/
def word4 (b0 b1 b2 b3 : Nat) : Nat :=
  m32 ((b0 <<< 24) + (b1 <<< 16) + (b2 <<< 8) + b3)

/-- The 16 initial message-schedule words of one block. -/
def blockWords : List Nat → List Nat
  | b0 :: b1 :: b2 :: b3 :: rest => word4 b0 b1 b2 b3 :: blockWords rest
  | _ => []

/-- One message-schedule extension step, building the schedule reversed. -/
def extendStep (rev : List Nat) : List Nat :=
  m32 (ssig1 (rev.getD 1 0) + rev.getD 6 0 + ssig0 (rev.getD 14 0) +
    rev.getD 15 0) :: rev

/-- The 64-word message schedule of one block. -/
def sha256Schedule (ws : List Nat) : List Nat :=
  (Nat.rec ws.reverse (fun _ ih => extendStep ih) 48 : List Nat).reverse

/-- One SHA-256 compression round. -/
def sha256Round (st : Sha256State) (kw : Nat) : Sha256State :=
  let t1 := m32 (st.h + bsig1 st.e + ((st.e &&& st.f) ^^^ ((w32 - 1 - st.e) &&& st.g)) + kw)
  let t2 := m32 (bsig0 st.a + ((st.a &&& st.b) ^^^ (st.a &&& st.c) ^^^ (st.b &&& st.c)))
  ⟨m32 (t1 + t2), st.a, st.b, st.c, m32 (st.d + t1), st.e, st.f, st.g⟩

/-- Compress one 64-byte block into the running state. -/
def sha256Block (st : Sha256State) (block : List Nat) : Sha256State :=
  let sched := sha256Schedule (blockWords block)
  let kws := (sched.zip sha256K).map (fun p => m32 (p.1 + p.2))
  let fin := kws.foldl sha256Round st
  ⟨m32 (st.a + fin.a), m32 (st.b + fin.b), m32 (st.c + fin.c), m32 (st.d + fin.d),
   m32 (st.e + fin.e), m32 (st.f + fin.f), m32 (st.g + fin.g), m32 (st.h + fin.h)⟩

/-- A hex digit character. -/
def hexChar (n : Nat) : Char :=
  if n < 10 then Char.ofNat ('0'.toNat + n) else Char.ofNat ('a'.toNat + n - 10)

/-- Lowercase hex of a 32-bit word, 8 digits. -/
def hex8 (x : Nat) : List Char :=
  (List.range 8).map (fun i => hexChar ((x >>> (28 - 4 * i)) % 16))

/-- `hashlib.sha256(bytes).hexdigest()` as a character list (64 hex digits). -/
def sha256Hex (msg : List Nat) : List Char :=
  let st := (chunk64 (sha256Pad msg)).foldl sha256Block sha256IV
  hex8 st.a ++ hex8 st.b ++ hex8 st.c ++ hex8 st.d ++
  hex8 st.e ++ hex8 st.f ++ hex8 st.g ++ hex8 st.h

/-- `TicketSuggester._make_id`: `sha256("-".join(parts)).hexdigest()[:12]`. -/
def makeId (parts : List String) : String :=
  String.mk ((sha256Hex (utf8Bytes (String.intercalate "-" parts))).take 12)

/-! ### `JIRA_REF_PATTERN = re.compile(r"[A-Z][A-Z0-9]+-\d+")` and `findall` -/

/-- Try to match `JIRA_REF_PATTERN` at the head of `c :: rest`.  The two
character classes are disjoint from `-`, so Python's greedy backtracking
matcher succeeds exactly when this greedy scan does.  On success, returns
the matched characters and the remaining text. -/
def jiraMatchAt (c : Char) (rest : List Char) : Option (List Char × List Char) :=
  if isUpperAZ c then
    let as := rest.takeWhile isKeyChar
    if as.isEmpty then none
    else
      match rest.dropWhile isKeyChar with
      | d :: rest2 =>
        if d = '-' then
          let ds := rest2.takeWhile isDigit09
          if ds.isEmpty then none
          else some (c :: as ++ '-' :: ds, rest2.dropWhile isDigit09)
        else none
      | [] => none
  else none

/-- `JIRA_REF_PATTERN.findall`: leftmost non-overlapping matches, in text
order, duplicates kept.  Fuel-based recursion (the fuel is the text
length, which bounds the number of scan steps). -/
def jiraFindAllAux : Nat → List Char → List (List Char)
  | 0, _ => []
  | _ + 1, [] => []
  | fuel + 1, c :: rest =>
    match jiraMatchAt c rest with
    | some (m, rest2) => m :: jiraFindAllAux fuel rest2
    | none => jiraFindAllAux fuel rest

/-- `JIRA_REF_PATTERN.findall(text)` as a list of strings. -/
def jiraRefsOfText (s : String) : List String :=
  (jiraFindAllAux s.data.length s.data).map String.mk

/-- Shape of a full issue-key match: one `[A-Z]`, then a nonempty run of
`[A-Z0-9]`, then `-`, then a nonempty run of digits, nothing after. -/
def isJiraKey (s : String) : Bool :=
  match s.data with
  | c :: rest =>
    isUpperAZ c &&
      (let as := rest.takeWhile isKeyChar
       !as.isEmpty &&
         (match rest.dropWhile isKeyChar with
          | d :: ds => d = '-' && !ds.isEmpty && ds.all isDigit09
          | [] => false))
  | [] => false

/-! ### Word-boundary alternation patterns (`\b(alt|...|alt)\b`, IGNORECASE)

The suggester's `FIX_PATTERN`, `FEAT_PATTERN`, ..., and the Jira client's
keyword-removal pattern are alternations of literal words (one of them,
`github.action`, uses `.` as a wildcard), wrapped in `\b` boundaries and
compiled with `re.IGNORECASE`.  Every alternative starts and ends with a
word character, so the leading `\b` holds iff the previous character is
absent or not a word character, and the trailing `\b` holds iff the next
character is absent or not a word character. -/

/-- One pattern atom: a literal (stored lowercase) or the `.` wildcard. -/
inductive PatAtom where
  | lit (c : Char)
  | any
deriving DecidableEq

/-- Match a list of atoms case-insensitively at the head of the text,
returning the remaining text on success. -/
def matchAtoms : List PatAtom → List Char → Option (List Char)
  | [], l => some l
  | _ :: _, [] => none
  | PatAtom.lit p :: ps, c :: cs => if lowerChar c = p then matchAtoms ps cs else none
  | PatAtom.any :: ps, _ :: cs => matchAtoms ps cs

/-- Atoms of a plain lowercase word. -/
def litAtoms (s : String) : List PatAtom := s.data.map PatAtom.lit

/-- Trailing `\b`: the remaining text is empty or starts with a non-word
character. -/
def boundaryAfter : List Char → Bool
  | [] => true
  | c :: _ => !isWordChar c

/-- Leading `\b` for a match whose first character is a word character:
the previous character is absent or not a word character. -/
def prevBoundary : Option Char → Bool
  | none => true
  | some c => !isWordChar c

/-- Try the alternatives in order at the current position; Python's
backtracking retries later alternatives when the trailing `\b` fails.
Returns the consumed characters and the remaining text. -/
def tryAlts (alts : List (List PatAtom)) (l : List Char) : Option (List Char × List Char) :=
  match alts with
  | [] => none
  | a :: rest =>
    match matchAtoms a l with
    | some after =>
      if boundaryAfter after then some (l.take a.length, after) else tryAlts rest l
    | none => tryAlts rest l

/-- `pattern.search(text) is not None` for a `\b(alts)\b` IGNORECASE
pattern: scan every position, tracking the previous character. -/
def searchAltsAux (alts : List (List PatAtom)) : Nat → Option Char → List Char → Bool
  | 0, _, _ => false
  | _ + 1, _, [] => false
  | fuel + 1, prev, c :: rest =>
    if prevBoundary prev ∧ (tryAlts alts (c :: rest)).isSome then true
    else searchAltsAux alts fuel (some c) rest

/-- `pattern.search(text) is not None`. -/
def searchAlts (alts : List (List PatAtom)) (s : String) : Bool :=
  searchAltsAux alts s.data.length none s.data

/-- `FIX_PATTERN = \b(fix|bug|patch|hotfix|resolve)\b`, IGNORECASE. -/
def fixAlts : List (List PatAtom) :=
  [litAtoms "fix", litAtoms "bug", litAtoms "patch", litAtoms "hotfix", litAtoms "resolve"]

/-- `FEAT_PATTERN = \b(feat|feature|add|implement|new)\b`, IGNORECASE. -/
def featAlts : List (List PatAtom) :=
  [litAtoms "feat", litAtoms "feature", litAtoms "add", litAtoms "implement", litAtoms "new"]

/-- `REFACTOR_PATTERN = \b(refactor|cleanup|clean up|reorganize|restructure)\b`. -/
def refactorAlts : List (List PatAtom) :=
  [litAtoms "refactor", litAtoms "cleanup", litAtoms "clean up",
   litAtoms "reorganize", litAtoms "restructure"]

/-- `DOCS_PATTERN = \b(docs?|documentation|readme|changelog)\b`: `docs?`
expands to the alternatives `docs` and `doc` (greedy `?` tries `s` first). -/
def docsAlts : List (List PatAtom) :=
  [litAtoms "docs", litAtoms "doc", litAtoms "documentation",
   litAtoms "readme", litAtoms "changelog"]

/-- `CI_PATTERN = \b(ci|cd|pipeline|workflow|deploy|docker|container|github.action)\b`
(the `.` is the regex wildcard). -/
def ciAlts : List (List PatAtom) :=
  [litAtoms "ci", litAtoms "cd", litAtoms "pipeline", litAtoms "workflow",
   litAtoms "deploy", litAtoms "docker", litAtoms "container",
   litAtoms "github" ++ [PatAtom.any] ++ litAtoms "action"]

/-- `TEST_PATTERN = \b(test|spec|coverage|jest|pytest|unittest)\b`. -/
def testAlts : List (List PatAtom) :=
  [litAtoms "test", litAtoms "spec", litAtoms "coverage",
   litAtoms "jest", litAtoms "pytest", litAtoms "unittest"]

/-! ### `_sanitize_jql_text` (`jira_client.py` lines 18-33) -/

/-- The alternatives of
`re.sub(r"\b(AND|OR|NOT|ORDER BY|IN|IS|WAS|CHANGED)\b", "", value, flags=re.IGNORECASE)`,
in Python's alternation order, stored lowercase. -/
def jqlKeywordAlts : List (List PatAtom) :=
  [litAtoms "and", litAtoms "or", litAtoms "not", litAtoms "order by",
   litAtoms "in", litAtoms "is", litAtoms "was", litAtoms "changed"]

/-- The scanner of `re.sub(pattern, "", value)` for a `\b(alts)\b`
IGNORECASE pattern: walk the text left to right; at a position whose
previous character is a boundary, remove the first alternative that
matches with a trailing boundary and continue after it (the previous
character then being the last removed one); otherwise emit the character. -/
def removeAltsAux (alts : List (List PatAtom)) : Nat → Option Char → List Char → List Char
  | 0, _, _ => []
  | _ + 1, _, [] => []
  | fuel + 1, prev, c :: rest =>
    match if prevBoundary prev then tryAlts alts (c :: rest) else none with
    | some (m, rest2) => removeAltsAux alts fuel (m.getLastD c) rest2
    | none => c :: removeAltsAux alts fuel (some c) rest

/-- `re.sub(r"\b(AND|OR|NOT|ORDER BY|IN|IS|WAS|CHANGED)\b", "", l, flags=re.IGNORECASE)`. -/
def removeJqlKeywords (l : List Char) : List Char :=
  removeAltsAux jqlKeywordAlts l.length none l

/-- Step 2-4 of `_sanitize_jql_text`: the three sequential `str.replace`
calls.  Each replaces a single character, so each pass is a `flatMap`. -/
def escapeBackslash (l : List Char) : List Char :=
  l.flatMap (fun c => if c = '\\' then ['\\', '\\'] else [c])

/-- `value.replace('"', '\\"')`. -/
def escapeDquote (l : List Char) : List Char :=
  l.flatMap (fun c => if c = '"' then ['\\', '"'] else [c])

/-- `value.replace("'", "\\'")`. -/
def escapeSquote (l : List Char) : List Char :=
  l.flatMap (fun c => if c = Char.ofNat 39 then ['\\', Char.ofNat 39] else [c])

/-- `_sanitize_jql_text(value)`: strip control characters, escape
backslash and both quotes, remove JQL keywords, strip whitespace. -/
def sanitizeJqlText (s : String) : String :=
  String.mk (pyStripList (removeJqlKeywords
    (escapeSquote (escapeDquote (escapeBackslash (s.data.filter (fun c => !isControlChar c)))))))

/-! ### `_validate_project_key` (`jira_client.py` lines 36-44) -/

/-- `_PROJECT_KEY_PATTERN = re.compile(r"^[A-Z][A-Z0-9]{1,9}$")` applied to
a whole string (after `strip`, the `$`-before-trailing-newline case cannot
occur). -/
def projectKeyMatch (s : String) : Bool :=
  match s.data with
  | c :: rest => isUpperAZ c && rest.all isKeyChar && 1 ≤ rest.length && rest.length ≤ 9
  | [] => false

/-- Python `str.upper()` (ASCII). -/
def pyUpper (s : String) : String :=
  String.mk (s.data.map (fun c => if isLowerAZ c then Char.ofNat (c.toNat - 32) else c))

/-- The normalization `key.strip().upper()` applied by `_validate_project_key`
before the pattern test. -/
def normalizeProjectKey (key : String) : String := pyUpper (pyStrip key)

/-- `_validate_project_key(key)`: returns the normalized key, or raises
`ValueError` (embedded as `Except.error`) when the normalized key does not
match the pattern. -/
def validateProjectKey (key : String) : Except String String :=
  let k := normalizeProjectKey key
  if projectKeyMatch k then Except.ok k
  else Except.error ("Invalid Jira project key format: " ++ k)

/-! ### Calendar arithmetic (UTC `datetime`, `isocalendar`, `fromisocalendar`)

Timestamps are Unix epoch seconds; Python floor division is `Int.fdiv`. -/

/-- Civil date from days since 1970-01-01 (proleptic Gregorian). -/
def civilFromDays (days : Int) : Int × Int × Int :=
  let z := days + 719468
  let era := z.fdiv 146097
  let doe := z - era * 146097
  let yoe := (doe - doe.fdiv 1460 + doe.fdiv 36524 - doe.fdiv 146096).fdiv 365
  let y := yoe + era * 400
  let doy := doe - (365 * yoe + yoe.fdiv 4 - yoe.fdiv 100)
  let mp := (5 * doy + 2).fdiv 153
  let d := doy - (153 * mp + 2).fdiv 5 + 1
  let m := mp + (if mp < 10 then 3 else -9)
  (y + (if m ≤ 2 then 1 else 0), m, d)

/-- Days since 1970-01-01 of a civil date. -/
def daysFromCivil (y m d : Int) : Int :=
  let yy := y - (if m ≤ 2 then 1 else 0)
  let era := yy.fdiv 400
  let yoe := yy - era * 400
  let doy := (153 * (if 2 < m then m - 3 else m + 9) + 2).fdiv 5 + d - 1
  let doe := yoe * 365 + yoe.fdiv 4 - yoe.fdiv 100 + doy
  era * 146097 + doe - 719468

/-- ISO weekday (Monday = 1 .. Sunday = 7) of a day number. -/
def isoWeekday (days : Int) : Int := (days + 3).fmod 7 + 1

/-- Number of ISO weeks (52 or 53) in a year. -/
def isoWeeksInYear (y : Int) : Int :=
  let p : Int → Int := fun yy => (yy + yy.fdiv 4 - yy.fdiv 100 + yy.fdiv 400).fmod 7
  52 + (if p y = 4 ∨ p (y - 1) = 3 then 1 else 0)

/-- `datetime.isocalendar()`: (ISO year, ISO week, ISO weekday). -/
def isoCalendar (days : Int) : Int × Int × Int :=
  let (y, _, _) := civilFromDays days
  let ord := days - daysFromCivil y 1 1 + 1
  let wd := isoWeekday days
  let w := (ord - wd + 10).fdiv 7
  if w < 1 then (y - 1, isoWeeksInYear (y - 1), wd)
  else if isoWeeksInYear y < w then (y + 1, 1, wd)
  else (y, w, wd)

/-- `datetime.fromisocalendar(year, week, day)` as a day number; `none`
embeds the `ValueError` on out-of-range arguments. -/
def fromIsoCalendar (y w day : Int) : Option Int :=
  if 1 ≤ y ∧ y ≤ 9999 ∧ 1 ≤ w ∧ w ≤ isoWeeksInYear y ∧ 1 ≤ day ∧ day ≤ 7 then
    let jan4 := daysFromCivil y 1 4
    some (jan4 - (isoWeekday jan4 - 1) + (w - 1) * 7 + (day - 1))
  else none

/-- Days since epoch of a UTC timestamp (`datetime.fromtimestamp(ts, tz=utc)`). -/
def tsDays (ts : Int) : Int := ts.fdiv 86400

/-- The week label `f"{iso_year}-W{iso_week:02d}"` of a commit timestamp. -/
def isoWeekLabel (ts : Int) : String :=
  let (iy, iw, _) := isoCalendar (tsDays ts)
  toString iy ++ "-W" ++ padNat 2 iw.toNat

/-- `strftime("%Y-%m-%d")` of a UTC timestamp. -/
def strfDate (ts : Int) : String :=
  let (y, m, d) := civilFromDays (tsDays ts)
  padNat 4 y.toNat ++ "-" ++ padNat 2 m.toNat ++ "-" ++ padNat 2 d.toNat

/-- C-locale `%b` month abbreviations. -/
def monthAbbr (m : Int) : String :=
  [(1, "Jan"), (2, "Feb"), (3, "Mar"), (4, "Apr"), (5, "May"), (6, "Jun"),
   (7, "Jul"), (8, "Aug"), (9, "Sep"), (10, "Oct"), (11, "Nov"),
   (12, "Dec")].foldl (fun acc p => if p.1 = m then p.2 else acc) ""

/-- `strftime("%b %d")` of a day number. -/
def strfMonthDay (days : Int) : String :=
  let (_, m, d) := civilFromDays days
  monthAbbr m ++ " " ++ padNat 2 d.toNat

/-- `strftime("%b %d, %Y")` of a day number. -/
def strfMonthDayYear (days : Int) : String :=
  let (y, m, d) := civilFromDays days
  monthAbbr m ++ " " ++ padNat 2 d.toNat ++ ", " ++ padNat 4 y.toNat

/-- Digit-list value. -/
def digitsVal (l : List Char) : Int :=
  l.foldl (fun a c => a * 10 + ((c.toNat : Int) - 48)) 0

/-- Python `int(str)`: optional surrounding whitespace and sign, then a
nonempty digit run (`ValueError` embedded as `none`). -/
def parseIntPy (s : String) : Option Int :=
  match pyStripList s.data with
  | '-' :: ds => if !ds.isEmpty && ds.all isDigit09 then some (-(digitsVal ds)) else none
  | '+' :: ds => if !ds.isEmpty && ds.all isDigit09 then some (digitsVal ds) else none
  | ds => if !ds.isEmpty && ds.all isDigit09 then some (digitsVal ds) else none

/-- `TicketSuggester._week_label_to_range("2025-W05")`: human date range of
an ISO week label, or `""` on any parse/validation failure. -/
def weekLabelToRange (weekLabel : String) : String :=
  match weekLabel.splitOn "-W" with
  | [ys, ws] =>
    match parseIntPy ys, parseIntPy ws with
    | some year, some week =>
      match fromIsoCalendar year week 1 with
      | some monday => strfMonthDay monday ++ " - " ++ strfMonthDayYear (monday + 6)
      | none => ""
    | _, _ => ""
  | _ => ""

/-! ### Data model (`models/git_models.py`, `models/jira_models.py`) -/

/-- `FileChange`. -/
structure FileChange where
  path : String
  change_type : String
  diff : Option String := none
deriving DecidableEq, Repr

/-- `CommitInfo` (dates as Unix epoch seconds). -/
structure CommitInfo where
  sha : String
  short_sha : String
  message : String
  author : String
  author_email : String
  date : Int
  files_changed : Nat
  insertions : Nat := 0
  deletions : Nat := 0
  jira_refs : List String := []
deriving DecidableEq, Repr

/-- `BranchInfo`. -/
structure BranchInfo where
  name : String
  is_active : Bool := false
  tracking : Option String := none
  ahead : Nat := 0
  behind : Nat := 0
  last_commit_date : Option Int := none
  jira_refs : List String := []
deriving DecidableEq, Repr

/-- `StaleBranch`. -/
structure StaleBranch where
  name : String
  last_commit_date : Option Int := none
  days_stale : Int := 0
  is_merged : Bool := false
deriving DecidableEq, Repr

/-- `RepoStatus`. -/
inductive RepoStatus where
  | clean
  | dirty
deriving DecidableEq, Repr

/-- `RepoInfo`. -/
structure RepoInfo where
  name : String
  path : String
  current_branch : String
  status : RepoStatus
  uncommitted_count : Nat := 0
  recent_commit_count : Nat := 0
  has_remote : Bool := false
  unpushed_count : Nat := 0
  untracked_count : Nat := 0
  stale_branches : List StaleBranch := []
deriving DecidableEq, Repr

/-- `UncommittedChanges`. -/
structure UncommittedChanges where
  staged : List FileChange := []
  unstaged : List FileChange := []
  untracked : List String := []
deriving DecidableEq, Repr

/-- `PullRequestInfo`. -/
structure PullRequestInfo where
  number : Nat
  title : String
  url : String
  branch : String
  state : String
  created_at : Option Int := none
  merged_at : Option Int := none
  closed_at : Option Int := none
deriving DecidableEq, Repr

/-- `UnpushedCommit`. -/
structure UnpushedCommit where
  sha : String
  short_sha : String
  message : String
  author : String
  date : Int
deriving DecidableEq, Repr

/-- `WorkSummary`. -/
structure WorkSummary where
  repo_name : String
  repo_path : String
  current_branch : String
  uncommitted : UncommittedChanges
  recent_commits : List CommitInfo := []
  branches : List BranchInfo := []
  pull_requests : List PullRequestInfo := []
  unpushed_commits : List UnpushedCommit := []
  stale_branches : List StaleBranch := []
deriving DecidableEq, Repr

/-- `IssueType`. -/
inductive IssueType where
  | story
  | task
  | bug
deriving DecidableEq, Repr

/-- `Priority`. -/
inductive Priority where
  | blocker
  | critical
  | major
  | normal
  | minor
deriving DecidableEq, Repr

/-- `ExistingJiraMatch`. -/
structure ExistingJiraMatch where
  key : String
  summary : String
  status : String
  url : String
deriving DecidableEq, Repr

/-- `TicketSuggestion`. -/
structure TicketSuggestion where
  id : String
  summary : String
  description : String
  issue_type : IssueType := IssueType.task
  priority : Priority := Priority.major
  labels : List String := []
  assignee : String := ""
  pr_urls : List String := []
  project_key : String := ""
  source_repo : String := ""
  source_branch : String := ""
  source_commits : List String := []
  source_files : List String := []
  already_tracked : Bool := false
  existing_jira : List ExistingJiraMatch := []
  selected : Bool := true
deriving DecidableEq, Repr

/-- `DuplicateCheckResult` (the pydantic model has exactly these fields;
the extra `confidence`/`matches` keyword arguments passed by
`check_duplicate` are silently dropped by pydantic). -/
structure DuplicateCheckResult where
  is_duplicate : Bool
  existing_keys : List String := []
deriving DecidableEq, Repr

/-! ### History miner (`git_analyzer.py`) -/

/-- A raw commit of the repository's newest-first history walk from HEAD,
as surfaced by the VCS library. -/
structure GitCommit where
  sha : String
  message : String
  author : String
  authorEmail : String
  committedDate : Int
  filesChanged : Nat
  insertions : Nat
  deletions : Nat
deriving DecidableEq, Repr

/-- Construction of one `CommitInfo` in `_get_recent_commits`: the
`message` field is stripped, while `jira_refs` is extracted from the
unstripped message. -/
def mkCommitInfo (c : GitCommit) : CommitInfo :=
  { sha := c.sha
    short_sha := pyTake c.sha 7
    message := pyStrip c.message
    author := c.author
    author_email := c.authorEmail
    date := c.committedDate
    files_changed := c.filesChanged
    insertions := c.insertions
    deletions := c.deletions
    jira_refs := jiraRefsOfText c.message }

/-- The prefix scan of `_get_recent_commits`: walk the (already
`max_count`-limited) commit list and stop at the first commit older than
the cutoff. -/
def commitScan (since : Int) : List GitCommit → List CommitInfo
  | [] => []
  | c :: rest =>
    if c.committedDate < since then [] else mkCommitInfo c :: commitScan since rest

/-- `GitAnalyzer._get_recent_commits(repo, max_commits, since_days)`:
`since = now - since_days days`; iterate `iter_commits(max_count=max_commits)`
and break at the first commit with `commit_dt < since`. -/
def getRecentCommits (walk : List GitCommit) (maxCommits : Nat) (sinceDays now : Int) :
    List CommitInfo :=
  commitScan (now - sinceDays * 86400) (walk.take maxCommits)

/-- A raw local branch as surfaced by the VCS library to `_get_branches`
(`ahead`/`behind` are the counts of the two `iter_commits` range walks,
already 0 when there is no tracking branch or the walk raised). -/
structure RawBranch where
  name : String
  tracking : Option String := none
  aheadCount : Nat := 0
  behindCount : Nat := 0
  lastCommitDate : Option Int := none
deriving DecidableEq, Repr

/-- `GitAnalyzer._get_branches`. -/
def getBranches (active : Option String) (raw : List RawBranch) : List BranchInfo :=
  raw.map fun b =>
    { name := b.name
      is_active := active = some b.name
      tracking := b.tracking
      ahead := b.aheadCount
      behind := b.behindCount
      last_commit_date := b.lastCommitDate
      jira_refs := jiraRefsOfText b.name }

/-- `pathlib.Path(p).name`: the last nonempty path component. -/
def pathName (p : String) : String :=
  ((p.splitOn "/").filter (fun s => s ≠ "")).getLastD ""

/-- The full repository state read by `GitAnalyzer.get_work_summary`
(the staged/unstaged `FileChange` lists embed the per-diff entries built
by `_get_uncommitted`, and `pullRequests` the best-effort `gh` CLI
result, which is `[]` on any failure). -/
structure AnalyzerRepo where
  path : String
  isDetached : Bool
  activeBranch : String
  walk : List GitCommit
  stagedChanges : List FileChange
  unstagedChanges : List FileChange
  untrackedFiles : List String
  rawBranches : List RawBranch
  pullRequests : List PullRequestInfo

/-- `GitAnalyzer._get_uncommitted`. -/
def getUncommitted (repo : AnalyzerRepo) : UncommittedChanges :=
  { staged := repo.stagedChanges
    unstaged := repo.unstagedChanges
    untracked := repo.untrackedFiles }

/-- `GitAnalyzer.get_work_summary(repo_path, max_commits, since_days)`. -/
def getWorkSummary (repo : AnalyzerRepo) (maxCommits : Nat) (sinceDays now : Int) :
    WorkSummary :=
  { repo_name := pathName repo.path
    repo_path := repo.path
    current_branch := if repo.isDetached then "HEAD" else repo.activeBranch
    uncommitted := getUncommitted repo
    recent_commits := getRecentCommits repo.walk maxCommits sinceDays now
    branches := getBranches (if repo.isDetached then none else some repo.activeBranch)
      repo.rawBranches
    pull_requests := repo.pullRequests }

/-! ### Repository locator (`folder_scanner.py`, `_scan_repo`) -/

/-- A local branch head as read by `_scan_repo`. -/
structure ScanHead where
  name : String
  tipSha : String
  tipDate : Int
deriving DecidableEq, Repr

/-- The repository state read by `FolderScanner._scan_repo`.  `stagedLen`
and `unstagedLen` are `len(repo.index.diff("HEAD"))` and
`len(repo.index.diff(None))`; `headWalk` is the newest-first sha walk from
HEAD; `branchCommits` the newest-first sha walk from a named branch head;
`rangeCount` the length of `iter_commits("tracking..active")`. -/
structure ScanRepo where
  hasCommits : Bool
  stagedLen : Nat
  unstagedLen : Nat
  untrackedFiles : List String
  isDetached : Bool
  activeBranch : String
  remoteNames : List String
  headWalk : List String
  trackingName : Option String
  rangeCount : Nat
  heads : List ScanHead
  branchCommits : String → List String

/-- The candidate default-branch names probed by `_scan_repo`, in order. -/
def scanDefaultCandidates : List String := ["main", "master", "develop", "development"]

/-- Default-branch selection of `_scan_repo`: first candidate present
among the local heads, else the active branch when not detached. -/
def scanDefaultBranch (r : ScanRepo) : Option String :=
  match scanDefaultCandidates.find? (fun c => (r.heads.map (·.name)).contains c) with
  | some c => some c
  | none => if r.isDetached then none else some r.activeBranch

/-- Stale-branch detection of `_scan_repo`: non-default heads whose tip is
older than the 30-day cutoff and not among the default branch's last 200
commits.  Every emitted entry has `is_merged := false`. -/
def scanStaleBranches (r : ScanRepo) (now : Int) : List StaleBranch :=
  match scanDefaultBranch r with
  | none => []
  | some dn =>
    if (r.heads.map (·.name)).contains dn then
      let defaultShas := (r.branchCommits dn).take 200
      r.heads.filterMap fun b =>
        if b.name = dn then none
        else if now - 30 * 86400 ≤ b.tipDate then none
        else if defaultShas.contains b.tipSha then none
        else some
          { name := b.name
            last_commit_date := some b.tipDate
            days_stale := (now - b.tipDate).fdiv 86400
            is_merged := false }
    else []

/-- `FolderScanner._scan_repo` (the happy path inside its `try`; an
unopenable repository returns `None` upstream and is skipped). -/
def scanRepo (r : ScanRepo) (now : Int) (path : String) (displayName : Option String) :
    RepoInfo :=
  if r.hasCommits then
    let untrackedCount := r.untrackedFiles.length
    let isDirty := 0 < r.stagedLen ∨ 0 < r.unstagedLen ∨ 0 < untrackedCount
    let uncommitted := r.stagedLen + r.unstagedLen + untrackedCount
    let branch := if r.isDetached then "HEAD" else r.activeBranch
    let commitCount := (r.headWalk.take 30).length
    let unpushed :=
      if ¬r.isDetached ∧ ¬r.remoteNames.isEmpty then
        match r.trackingName with
        | some _ => r.rangeCount
        | none => 0
      else 0
    { name := displayName.getD (pathName path)
      path := path
      current_branch := branch
      status := if isDirty then RepoStatus.dirty else RepoStatus.clean
      uncommitted_count := uncommitted
      recent_commit_count := commitCount
      has_remote := ¬r.remoteNames.isEmpty
      unpushed_count := unpushed
      untracked_count := untrackedCount
      stale_branches := scanStaleBranches r now }
  else
    let untrackedCount := r.untrackedFiles.length
    { name := displayName.getD (pathName path)
      path := path
      current_branch := "main"
      status := if 0 < untrackedCount then RepoStatus.dirty else RepoStatus.clean
      uncommitted_count := untrackedCount
      recent_commit_count := 0
      has_remote := ¬r.remoteNames.isEmpty
      unpushed_count := 0
      untracked_count := untrackedCount
      stale_branches := [] }

/-! ### Ticket suggester (`ticket_suggester.py`) -/

/-- Insertion-order upsert appending to an existing group (`defaultdict`
with `append`/`extend`). -/
def upsertExtend (l : List (String × List CommitInfo)) (k : String) (v : List CommitInfo) :
    List (String × List CommitInfo) :=
  if l.any (fun p => p.1 = k) then
    l.map (fun p => if p.1 = k then (p.1, p.2 ++ v) else p)
  else l ++ [(k, v)]

/-- Insert into a list sorted by `le`. -/
def insertSorted (le : String × List CommitInfo → String × List CommitInfo → Bool)
    (x : String × List CommitInfo) :
    List (String × List CommitInfo) → List (String × List CommitInfo)
  | [] => [x]
  | y :: ys => if le x y then x :: y :: ys else y :: insertSorted le x ys

/-- Insertion sort (the group keys are distinct, so this agrees with
Python `sorted`). -/
def sortGroups (l : List (String × List CommitInfo)) : List (String × List CommitInfo) :=
  l.foldr (insertSorted (fun a b => decide (a.1 ≤ b.1))) []

/-- `TicketSuggester._group_by_week`: group by ISO week label, then sort
by label. -/
def groupByWeek (commits : List CommitInfo) : List (String × List CommitInfo) :=
  sortGroups (commits.foldl (fun acc c => upsertExtend acc (isoWeekLabel c.date) [c]) [])

/-- `TicketSuggester._detect_area_from_message`. -/
def detectArea (message : String) : String :=
  let ml := pyLower message
  if searchAlts ciAlts message then "ci-infra"
  else if searchAlts testAlts message then "tests"
  else if searchAlts docsAlts message then "docs"
  else if containsSub ml "frontend" || containsSub ml "ui" || containsSub ml "component" ||
      containsSub ml "tsx" then "frontend"
  else if containsSub ml "backend" || containsSub ml "api" || containsSub ml "service" ||
      containsSub ml "route" then "backend"
  else if containsSub ml "ansible" || containsSub ml "playbook" || containsSub ml "role" then
    "ansible"
  else if containsSub ml "config" || containsSub ml "settings" || containsSub ml "env" then
    "config"
  else "general"

/-- `TicketSuggester._group_by_file_area`: group by detected area, then
fold one-commit non-"general" groups into "general". -/
def groupByFileArea (commits : List CommitInfo) : List (String × List CommitInfo) :=
  let groups := commits.foldl (fun acc c => upsertExtend acc (detectArea c.message) [c]) []
  let merged := groups.foldl
    (fun acc p =>
      if p.2.length ≤ 1 ∧ p.1 ≠ "general" then upsertExtend acc "general" p.2
      else upsertExtend acc p.1 p.2) []
  if merged.isEmpty then [("general", commits)] else merged

/-- The default branch names skipped by `_extract_feature_branches`. -/
def defaultBranchNames : List String := ["main", "master", "development", "develop"]

/-- `TicketSuggester._extract_feature_branches`: non-default branches,
with the untracked commits whose message mentions the branch name. -/
def extractFeatureBranches (s : WorkSummary) : List (String × List CommitInfo) :=
  s.branches.foldl
    (fun acc b =>
      if defaultBranchNames.contains b.name ∨ b.name = s.current_branch then acc
      else
        let bcs := s.recent_commits.filter
          (fun c => c.jira_refs.isEmpty && containsSub c.message b.name)
        if bcs.isEmpty then acc
        else if acc.any (fun p => p.1 = b.name) then
          acc.map (fun p => if p.1 = b.name then (p.1, bcs) else p)
        else acc ++ [(b.name, bcs)]) []

/-- `TicketSuggester._infer_type_from_messages`. -/
def inferTypeFromMessages (text : String) : IssueType :=
  if searchAlts fixAlts text then IssueType.bug
  else if searchAlts featAlts text then IssueType.story
  else IssueType.task

/-- `TicketSuggester._infer_type_from_files`. -/
def inferTypeFromFiles (files changeTypes : List String) : IssueType :=
  if files.any (fun f => containsSub (pyLower f) "test") then IssueType.task
  else if changeTypes.any (fun ct => ct = "added" || ct = "A") then IssueType.story
  else IssueType.task

/-- `TicketSuggester._infer_priority`. -/
def inferPriority (fileCount insertions : Nat) : Priority :=
  if 20 < fileCount ∨ 500 < insertions then Priority.critical
  else if 10 < fileCount ∨ 200 < insertions then Priority.major
  else if 3 < fileCount then Priority.normal
  else Priority.minor

/-- Increment an insertion-ordered counter (`d[k] = d.get(k, 0) + 1`). -/
def bumpCount (l : List (String × Nat)) (k : String) : List (String × Nat) :=
  if l.any (fun p => p.1 = k) then
    l.map (fun p => if p.1 = k then (p.1, p.2 + 1) else p)
  else l ++ [(k, 1)]

/-- The conventional-commit counter loop of `_extract_theme`. -/
def themeCounts (commits : List CommitInfo) : List (String × Nat) :=
  commits.foldl
    (fun acc c =>
      let fl := pyLower (firstLine c.message)
      if pyStartsWith fl "feat" then bumpCount acc "Feature development"
      else if pyStartsWith fl "fix" then bumpCount acc "Bug fixes"
      else if pyStartsWith fl "refactor" then bumpCount acc "Refactoring"
      else if pyStartsWith fl "docs" then bumpCount acc "Documentation updates"
      else if pyStartsWith fl "test" then bumpCount acc "Test improvements"
      else if pyStartsWith fl "chore" then bumpCount acc "Maintenance"
      else if pyStartsWith fl "ci" then bumpCount acc "CI/CD updates"
      else acc) []

/-- `TicketSuggester._extract_theme`. -/
def extractTheme (commits : List CommitInfo) : String :=
  let allMessages := String.intercalate " " (commits.map (fun c => firstLine c.message))
  let fallback :=
    if searchAlts featAlts allMessages then "Feature development"
    else if searchAlts fixAlts allMessages then "Bug fixes and patches"
    else if searchAlts refactorAlts allMessages then "Code refactoring"
    else ""
  match themeCounts commits with
  | [] => fallback
  | p :: ps =>
    let dominant := ps.foldl (fun best kv => if best.2 < kv.2 then kv else best) p
    if commits.length ≤ 2 * dominant.2 then dominant.1 else fallback

/-- Placeholder for the unreachable `commits[0]` on an empty group
(`suggest` only builds tickets from nonempty groups). -/
def dummyCommit : CommitInfo :=
  { sha := "", short_sha := "", message := "", author := "", author_email := ""
    date := 0, files_changed := 0 }

/-- `TicketSuggester._build_summary`. -/
def buildSummary (repoName : String) (commits : List CommitInfo) (context area : String) :
    String :=
  let theme := extractTheme commits
  let part2 :=
    if theme ≠ "" then theme
    else pyTake (firstLine ((commits.headD dummyCommit).message)) 60
  let parts := ["[" ++ repoName ++ "]", part2] ++
    (if 1 < commits.length then ["(+" ++ natStr (commits.length - 1) ++ " commits)"] else [])
  let qualifiers :=
    (if area ≠ "" ∧ area ≠ "general" then [area] else []) ++
    (if context ≠ "" then [context] else [])
  let parts2 := parts ++
    (if ¬qualifiers.isEmpty then ["[" ++ String.intercalate ", " qualifiers ++ "]"] else [])
  String.intercalate " " parts2

/-- `TicketSuggester._build_description`. -/
def buildDescription (repoName branch : String) (commits : List CommitInfo)
    (context area : String) (totalFiles : Nat) : List String :=
  ["Work on **" ++ repoName ++ "**, branch `" ++ branch ++ "`."] ++
  (if context ≠ "" then
    (let wr := weekLabelToRange (pyReplace context "week-" "")
     if wr ≠ "" then ["Period: " ++ wr] else [])
   else []) ++
  (if area ≠ "" ∧ area ≠ "general" then ["Area: **" ++ area ++ "**"] else []) ++
  ["", "**" ++ natStr commits.length ++ " commit(s), " ++ natStr totalFiles ++
    " file(s) changed:**", ""] ++
  (commits.take 15).map (fun c =>
    "- `" ++ c.short_sha ++ "` (" ++ strfDate c.date ++ ") " ++
      pyTake (firstLine c.message) 100) ++
  (if 15 < commits.length then
    ["- ... and " ++ natStr (commits.length - 15) ++ " more commits"] else [])

/-- `TicketSuggester._build_ticket`. -/
def buildTicket (assignee : String) (s : WorkSummary) (branch : String)
    (commits : List CommitInfo) (projectKey context area : String) : TicketSuggestion :=
  let allMessages := String.intercalate " " (commits.map (·.message))
  let totalFiles := (commits.map (·.files_changed)).sum
  let totalInsertions := (commits.map (·.insertions)).sum
  let idParts := [s.repo_name, branch] ++
    (if context ≠ "" then [context] else []) ++ (if area ≠ "" then [area] else [])
  { id := makeId idParts
    summary := buildSummary s.repo_name commits context area
    description := String.intercalate "\n"
      (buildDescription s.repo_name branch commits context area totalFiles)
    issue_type := inferTypeFromMessages allMessages
    priority := inferPriority totalFiles totalInsertions
    assignee := assignee
    pr_urls := (s.pull_requests.filter (fun pr => pr.branch = branch)).map (·.url)
    project_key := projectKey
    source_repo := s.repo_name
    source_branch := branch
    source_commits := commits.map (·.short_sha) }

/-- `TicketSuggester._uncommitted_ticket`. -/
def uncommittedTicket (assignee : String) (s : WorkSummary) (projectKey : String) :
    TicketSuggestion :=
  let files := s.uncommitted.staged.map (·.path) ++ s.uncommitted.unstaged.map (·.path) ++
    s.uncommitted.untracked
  let changeTypes := s.uncommitted.staged.map (·.change_type) ++
    s.uncommitted.unstaged.map (·.change_type)
  let descLines :=
    ["Uncommitted work in **" ++ s.repo_name ++ "** on branch `" ++ s.current_branch ++ "`.",
     "", "**" ++ natStr files.length ++ " file(s) changed:**"] ++
    (files.take 20).map (fun f => "- `" ++ f ++ "`") ++
    (if 20 < files.length then ["- ... and " ++ natStr (files.length - 20) ++ " more"] else [])
  { id := makeId [s.repo_name, "uncommitted"]
    summary := "[" ++ s.repo_name ++ "] Uncommitted work on " ++ s.current_branch
    description := String.intercalate "\n" descLines
    issue_type := inferTypeFromFiles files changeTypes
    priority := inferPriority files.length 0
    assignee := assignee
    pr_urls := (s.pull_requests.filter (fun pr => pr.branch = s.current_branch)).map (·.url)
    project_key := projectKey
    source_repo := s.repo_name
    source_branch := s.current_branch
    source_files := files.take 50 }

/-- The per-repository body of `TicketSuggester.suggest`. -/
def suggestOne (assignee projectKey : String) (s : WorkSummary) : List TicketSuggestion :=
  let uncommittedPart :=
    if ¬s.uncommitted.staged.isEmpty ∨ ¬s.uncommitted.unstaged.isEmpty ∨
        ¬s.uncommitted.untracked.isEmpty then
      [uncommittedTicket assignee s projectKey]
    else []
  let untracked := s.recent_commits.filter (fun c => c.jira_refs.isEmpty)
  if untracked.isEmpty then uncommittedPart
  else
    let fbs := extractFeatureBranches s
    let branchTickets := fbs.flatMap (fun bb =>
      if 12 < bb.2.length then
        (groupByWeek bb.2).map (fun wg =>
          buildTicket assignee s bb.1 wg.2 projectKey ("week-" ++ wg.1) "")
      else [buildTicket assignee s bb.1 bb.2 projectKey "" ""])
    let claimed := fbs.flatMap (fun bb => bb.2.map (·.sha))
    let remaining := untracked.filter (fun c => ¬claimed.contains c.sha)
    if remaining.isEmpty then uncommittedPart ++ branchTickets
    else
      let weeklyTickets := (groupByWeek remaining).flatMap (fun wg =>
        match groupByFileArea wg.2 with
        | [ag] => [buildTicket assignee s s.current_branch ag.2 projectKey
            ("week-" ++ wg.1) ag.1]
        | ags => ags.flatMap (fun ag =>
            if ag.2.length = 0 then []
            else [buildTicket assignee s s.current_branch ag.2 projectKey
              ("week-" ++ wg.1) ag.1]))
      uncommittedPart ++ branchTickets ++ weeklyTickets

/-- `TicketSuggester.suggest(summaries, project_key)`. -/
def suggest (assignee : String) (summaries : List WorkSummary) (projectKey : String) :
    List TicketSuggestion :=
  summaries.flatMap (suggestOne assignee projectKey)

/-! ### Duplicate matcher (`jira_client.py`) -/

/-- An issue as returned by the tracker's search endpoint. -/
structure JiraIssue where
  key : String
  summary : String
  status : String
deriving DecidableEq, Repr

/-- `re.sub(r"^\[.*?\]\s*", "", s)`: strip one leading bracketed prefix
(`.` does not cross a newline; `.*?` is lazy, so the bracket closes at the
first `]`). -/
def stripBracketedText (s : String) : String :=
  match s.data with
  | '[' :: rest =>
    let inner := rest.takeWhile (fun c => c ≠ ']')
    if inner.any (fun c => c = Char.ofNat 10) then s
    else
      match rest.dropWhile (fun c => c ≠ ']') with
      | ']' :: after => String.mk (after.dropWhile isPySpace)
      | _ => s
  | _ => s

/-- Build one `ExistingJiraMatch` from a search hit. -/
def matchOfIssue (server : String) (i : JiraIssue) : ExistingJiraMatch :=
  { key := i.key, summary := i.summary, status := i.status
    url := server ++ "/browse/" ++ i.key }

/-- `matches[key] = m` (overwrite, keeping first-insertion position). -/
def putMatch (l : List (String × ExistingJiraMatch)) (k : String) (m : ExistingJiraMatch) :
    List (String × ExistingJiraMatch) :=
  if l.any (fun p => p.1 = k) then l.map (fun p => if p.1 = k then (p.1, m) else p)
  else l ++ [(k, m)]

/-- `if key not in matches: matches[key] = m`. -/
def putMatchIfAbsent (l : List (String × ExistingJiraMatch)) (k : String)
    (m : ExistingJiraMatch) : List (String × ExistingJiraMatch) :=
  if l.any (fun p => p.1 = k) then l else l ++ [(k, m)]

/-- The confidence computation of `check_duplicate` (lines 144-152); its
result is passed to the pydantic `DuplicateCheckResult`, which has no
`confidence` field and silently drops it. -/
def dupConfidence (matchList : List ExistingJiraMatch) (commitShas : List String) : String :=
  if matchList.isEmpty then "none"
  else if 2 ≤ matchList.length then "high"
  else if ¬commitShas.isEmpty ∧
      matchList.any (fun m => commitShas.any (fun sha => containsSub m.summary (pyTake sha 7)))
    then "high"
  else "medium"

/-- `JiraClient.check_duplicate(summary, project_key, commit_shas)`.  The
tracker is abstracted as a `search (jql) (maxResults)` oracle; the second
component of the `ok` result records the JQL queries issued, in order.
Validation failure (`ValueError`) is `Except.error`, raised before any
query is issued. -/
def checkDuplicate (search : String → Nat → List JiraIssue) (server : String)
    (summary projectKey : String) (commitShas : List String) :
    Except String (DuplicateCheckResult × List String) :=
  match validateProjectKey projectKey with
  | Except.error e => Except.error e
  | Except.ok safeKey =>
    let cleanSummary := sanitizeJqlText summary
    let coreSummary := pyStrip (stripBracketedText cleanSummary)
    let searchText := if coreSummary ≠ "" then pyTake coreSummary 60 else pyTake cleanSummary 60
    let step1 :=
      if searchText ≠ "" then
        let jql := "project = " ++ safeKey ++ " AND summary ~ \"" ++
          sanitizeJqlText searchText ++ "\" AND created >= -60d"
        ((search jql 5).foldl (fun acc i => putMatch acc i.key (matchOfIssue server i)) [],
         [jql])
      else ([], [])
    let step2 := (commitShas.take 5).foldl
      (fun acc sha =>
        let safeSha := sanitizeJqlText (pyTake sha 7)
        if safeSha.length < 6 then acc
        else
          let jql := "project = " ++ safeKey ++ " AND description ~ \"" ++ safeSha ++ "\""
          ((search jql 3).foldl (fun a i => putMatchIfAbsent a i.key (matchOfIssue server i))
            acc.1,
           acc.2 ++ [jql]))
      step1
    let keys := step2.1.map (fun p => p.2.key)
    Except.ok ({ is_duplicate := 0 < keys.length, existing_keys := keys }, step2.2)

/-- `JiraClient.find_existing(project_key, repo_name, branch, pr_urls, commit_shas)`,
with the same oracle and query log as `checkDuplicate`. -/
def findExisting (search : String → Nat → List JiraIssue) (server : String)
    (projectKey repoName branch : String) (prUrls commitShas : List String) :
    Except String (List ExistingJiraMatch × List String) :=
  match validateProjectKey projectKey with
  | Except.error e => Except.error e
  | Except.ok safeKey =>
    let collect := fun (st : List (String × ExistingJiraMatch) × List String)
        (jql : String) (maxResults : Nat) =>
      ((search jql maxResults).foldl
        (fun a i => putMatchIfAbsent a i.key (matchOfIssue server i)) st.1,
       st.2 ++ [jql])
    let st0 : List (String × ExistingJiraMatch) × List String := ([], [])
    let cleanRepo := sanitizeJqlText repoName
    let st1 :=
      if cleanRepo ≠ "" then
        collect st0 ("project = " ++ safeKey ++ " AND summary ~ \"" ++ cleanRepo ++ "\"") 10
      else st0
    let st2 :=
      if branch ≠ "" ∧ ¬defaultBranchNames.contains branch then
        let cleanBranch := sanitizeJqlText branch
        if cleanBranch ≠ "" then
          collect st1 ("project = " ++ safeKey ++ " AND (summary ~ \"" ++ cleanBranch ++
            "\" OR description ~ \"" ++ cleanBranch ++ "\")") 10
        else st1
      else st1
    let st3 := prUrls.foldl
      (fun st url =>
        if containsSub url "/pull/" then
          let prRef := sanitizeJqlText ((url.splitOn "/pull/").getLastD "")
          let repoSlug := sanitizeJqlText
            ((((url.splitOn "/pull/").headD "").splitOn "/").getLastD "")
          if repoSlug ≠ "" ∧ prRef ≠ "" then
            collect st ("project = " ++ safeKey ++ " AND description ~ \"" ++ repoSlug ++
              "\" AND description ~ \"pull/" ++ prRef ++ "\"") 5
          else st
        else st)
      st2
    let st4 := (commitShas.take 5).foldl
      (fun st sha =>
        let safeSha := sanitizeJqlText (pyTake sha 7)
        if 6 ≤ safeSha.length then
          collect st ("project = " ++ safeKey ++ " AND description ~ \"" ++ safeSha ++ "\"") 3
        else st)
      st3
    Except.ok (st4.1.map (fun p => p.2), st4.2)

/-! ### Batch analysis (`routes/folders.py`, `analyze_folders`) -/

/-- The placeholder summary substituted when analyzing one path raises
(`current_branch = "error"`, empty collections,
`repo_name = path.split("/")[-1]`). -/
def placeholderSummary (path : String) : WorkSummary :=
  { repo_name := (path.splitOn "/").getLastD ""
    repo_path := path
    current_branch := "error"
    uncommitted := {} }

/-- `analyze_repo(path)`: the per-path analysis with its error handler;
the underlying analyzer is abstracted as `f`, whose `error` case embeds a
raised exception. -/
def analyzeOne (f : String → Except String WorkSummary) (path : String) : WorkSummary :=
  match f path with
  | Except.ok w => w
  | Except.error _ => placeholderSummary path

/-- The sequential branch of `analyze_folders` (and the value, per input
index, of the parallel branch). -/
def analyzeFolders (f : String → Except String WorkSummary) (paths : List String) :
    List WorkSummary :=
  paths.map (analyzeOne f)

/-- The parallel branch of `analyze_folders`: a `results` array of length
`len(paths)` is pre-allocated and each completed future writes its value
at its original index; `completion` is the order in which futures
complete. -/
def runBatch (f : String → Except String WorkSummary) (paths : List String)
    (completion : List Nat) : List (Option WorkSummary) :=
  completion.foldl (fun acc i => acc.set i (some (analyzeOne f (paths.getD i ""))))
    (List.replicate paths.length none)

/-! ### Analysis cache

`routes/folders.py` and several other routes call
`GitAnalyzer.get_work_summary_cached` and `GitAnalyzer.clear_cache`, but
no definition of these methods exists in the repository sources; the
cache is therefore modelled from the specification. -/

/-- Modelled from the spec: the cache key `(repoPath, maxCommits, sinceDays)`
of the missing `GitAnalyzer.get_work_summary_cached`. -/
structure CacheKey where
  repoPath : String
  maxCommits : Nat
  sinceDays : Int
deriving DecidableEq, Repr

/-- Modelled from the spec: one immutable cache entry (snapshot plus
insertion time). -/
structure CacheEntry where
  key : CacheKey
  time : Int
  value : WorkSummary
deriving DecidableEq, Repr

/-- Modelled from the spec: cache lookup by key. -/
def cacheLookup (cache : List CacheEntry) (k : CacheKey) : Option CacheEntry :=
  cache.find? (fun e => e.key = k)

/-- Modelled from the spec: the missing `GitAnalyzer.get_work_summary_cached`.
A hit younger than `ttl` (default 300 s) short-circuits recomputation;
`bypass` forces recomputation (the route's `use_cache=false`); a
recomputation stores a fresh immutable snapshot.  `compute` is the direct
computation `get_work_summary` at the key's parameters. -/
def getWorkSummaryCached (compute : CacheKey → WorkSummary) (cache : List CacheEntry)
    (now : Int) (k : CacheKey) (ttl : Int := 300) (bypass : Bool := false) :
    WorkSummary × List CacheEntry :=
  let fresh := compute k
  let store := (cache.filter (fun e => e.key ≠ k)) ++ [{ key := k, time := now, value := fresh }]
  match (if bypass then none else cacheLookup cache k) with
  | some e => if now - e.time < ttl then (e.value, cache) else (fresh, store)
  | none => (fresh, store)

/-- Modelled from the spec: the missing `GitAnalyzer.clear_cache(repo_path)`
for a given path (the `/clear-cache` route with `repo_path` set). -/
def clearCacheOne (cache : List CacheEntry) (repoPath : String) : List CacheEntry :=
  cache.filter (fun e => e.key.repoPath ≠ repoPath)

/-- Modelled from the spec: the missing `GitAnalyzer.clear_cache()` with no
path (the `/clear-cache` route with `repo_path` omitted). -/
def clearCacheAll (_cache : List CacheEntry) : List CacheEntry := []

/-- Cache coherence: every stored snapshot equals the direct computation
at its key.  This holds for every cache reachable through the operations
above from the empty cache (with a fixed repository environment). -/
def CacheCoherent (compute : CacheKey → WorkSummary) (cache : List CacheEntry) : Prop :=
  ∀ e ∈ cache, e.value = compute e.key

/-! ### Specification predicates and concrete fixtures -/

/-- Escape discipline claimed for sanitized JQL text: scanning left to
right, every backslash starts an escape pair (`\\`, `\"` or `\'`) and no
quote character appears outside such a pair. -/
def wellEscaped : List Char → Bool
  | [] => true
  | c :: rest =>
    if c = '\\' then
      match rest with
      | [] => false
      | c2 :: rest2 => isSpecialJql c2 && wellEscaped rest2
    else !isSpecialJql c && wellEscaped rest

/-- `tok` is exactly one of the alternatives (case-insensitively, with
wildcards of the pattern honored). -/
def TokenOfAlts (alts : List (List PatAtom)) (tok : List Char) : Prop :=
  ∃ a ∈ alts, matchAtoms a tok = some []

/-- There is a standalone (word-boundary-delimited) occurrence of one of
the alternatives inside `l`, where the character context to the left of
`l` itself is `leftCtx`. -/
def HasStandaloneAlt (alts : List (List PatAtom)) (leftCtx : Option Char)
    (l : List Char) : Prop :=
  ∃ pre tok post, l = pre ++ tok ++ post ∧ TokenOfAlts alts tok ∧
    (match pre.getLast? with
     | none => prevBoundary leftCtx
     | some c => !isWordChar c) = true ∧
    boundaryAfter post = true

/-- The character content of the removal keywords: lowercase letters and
the interior space of `ORDER BY`. -/
def isKeywordChar (c : Char) : Bool := isLowerAZ c || c.toNat = 32

/-- Tokens whose consecutive characters never put two non-word characters
in a row (each step from the previous character has a word character on at
least one side); all removal keywords satisfy this. -/
def goodTail (prev : Char) : List Char → Bool
  | [] => true
  | x :: xs => (isWordChar prev || isWordChar x) && goodTail x xs

/-- The six query-language keywords named by the specification (the first
six alternatives of the removal pattern). -/
def claimKeywordAlts : List (List PatAtom) := jqlKeywordAlts.take 6

/-- The windowing contract of `_get_recent_commits` for one walk:
the result is a prefix of the (`max_count`-limited) newest-first walk,
contains no commit older than the cutoff, contains every in-window commit
of the window (for a chronologically ordered walk), and stops at the
first commit older than the cutoff rather than filtering past it. -/
def recentCommitsSpec (walk : List GitCommit) (maxCommits : Nat) (sinceDays now : Int) :
    Prop :=
  ((getRecentCommits walk maxCommits sinceDays now).map CommitInfo.sha) <+:
      ((walk.take maxCommits).map GitCommit.sha) ∧
  (∀ ci ∈ getRecentCommits walk maxCommits sinceDays now,
    now - sinceDays * 86400 ≤ ci.date) ∧
  (∀ c ∈ walk.take maxCommits, now - sinceDays * 86400 ≤ c.committedDate →
    c.sha ∈ (getRecentCommits walk maxCommits sinceDays now).map CommitInfo.sha) ∧
  (∀ pre bad post, walk.take maxCommits = pre ++ bad :: post →
    (∀ p ∈ pre, now - sinceDays * 86400 ≤ p.committedDate) →
    bad.committedDate < now - sinceDays * 86400 →
    getRecentCommits walk maxCommits sinceDays now = pre.map mkCommitInfo)

/-- Fixture: a commit for concrete evaluations. -/
def exCommit (sha msg : String) (ts : Int) : CommitInfo :=
  { sha := sha, short_sha := pyTake sha 7, message := msg, author := "dev"
    author_email := "dev@example.com", date := ts, files_changed := 1, insertions := 5 }

/-- Fixture: the specification's example scenario — three untracked
commits in ISO week 2025-W41 tagged `feat: add X`, `feat: add Y`,
`fix: typo`, no uncommitted changes, no non-default branches. -/
def exampleSummary : WorkSummary :=
  { repo_name := "devrepo", repo_path := "/home/dev/devrepo", current_branch := "main"
    uncommitted := {}
    recent_commits :=
      [exCommit "cccc333" "fix: typo" 1759924800,
       exCommit "bbbb222" "feat: add Y" 1759838400,
       exCommit "aaaa111" "feat: add X" 1759752000] }

/-- Fixture: a two-commit walk, the older one outside every recent
window used in the witnesses. -/
def exWalk : List GitCommit :=
  [{ sha := "aaaa111", message := "feat: add X", author := "dev"
     authorEmail := "dev@example.com", committedDate := 1759752000
     filesChanged := 1, insertions := 5, deletions := 0 },
   { sha := "00bb222", message := "old work", author := "dev"
     authorEmail := "dev@example.com", committedDate := 1000000
     filesChanged := 1, insertions := 5, deletions := 0 }]

/-- Fixture: a repository with one stale branch. -/
def exScanRepo : ScanRepo :=
  { hasCommits := true, stagedLen := 0, unstagedLen := 0, untrackedFiles := []
    isDetached := false, activeBranch := "main", remoteNames := ["origin"]
    headWalk := ["m1"], trackingName := none, rangeCount := 0
    heads := [{ name := "main", tipSha := "m1", tipDate := 1759752000 },
              { name := "feature-x", tipSha := "f1", tipDate := 1000000 }]
    branchCommits := fun n => if n = "main" then ["m1"] else ["f1"] }

/-- Fixture: an analyzer that fails on one path and succeeds elsewhere. -/
def exAnalyze (p : String) : Except String WorkSummary :=
  if p = "/repos/bad" then Except.error "boom"
  else Except.ok
    { repo_name := pathName p, repo_path := p, current_branch := "main", uncommitted := {} }

/-- Fixture: a repository with only uncommitted work. -/
def exDirtySummary : WorkSummary :=
  { repo_name := "devrepo", repo_path := "/home/dev/devrepo", current_branch := "main"
    uncommitted := { untracked := ["notes.txt"] } }

/-- Fixture: a direct computation for the cache witnesses. -/
def exCompute (k : CacheKey) : WorkSummary :=
  { repo_name := pathName k.repoPath, repo_path := k.repoPath, current_branch := "main"
    uncommitted := {} }

/-! ## Helper lemmas -/

theorem runBatch_foldl_getElem (f : String → Except String WorkSummary) (paths : List String) :
    ∀ (comp : List Nat) (acc : List (Option WorkSummary)) (j : Nat),
      (comp.foldl (fun a i => a.set i (some (analyzeOne f (paths.getD i "")))) acc)[j]? =
        if j ∈ comp ∧ j < acc.length then some (some (analyzeOne f (paths.getD j "")))
        else acc[j]? := by
  intro comp
  induction comp with
  | nil => intro acc j; simp
  | cons i rest ih =>
    intro acc j
    simp only [List.foldl_cons]
    rw [ih]
    by_cases hjr : j ∈ rest
    · simp only [hjr, List.length_set, List.mem_cons, true_and, or_true, true_and]
      split
      · rfl
      · rename_i hlen
        rw [List.getElem?_eq_none (by rw [List.length_set]; omega),
          List.getElem?_eq_none (by omega)]
    · by_cases hij : i = j
      · subst hij
        by_cases hlen : i < acc.length
        · simp [hjr, hlen, List.getElem?_set, List.length_set]
        · simp only [hjr, List.length_set, List.mem_cons, or_false, hlen, and_false,
            if_false]
          rw [List.getElem?_eq_none (by rw [List.length_set]; omega),
            List.getElem?_eq_none (by omega)]
      · have hji : j ≠ i := fun h => hij h.symm
        simp only [hjr, false_and, if_false, List.mem_cons, hji, or_false,
          List.getElem?_set, List.length_set]
        rw [if_neg hij]

theorem commitScan_eq_takeWhile (since : Int) (l : List GitCommit) :
    commitScan since l =
      (l.takeWhile (fun c => decide (since ≤ c.committedDate))).map mkCommitInfo := by
  induction l with
  | nil => rfl
  | cons c rest ih =>
    unfold commitScan
    by_cases h : c.committedDate < since
    · rw [if_pos h]
      have hd : decide (since ≤ c.committedDate) = false := by simp; omega
      simp [List.takeWhile_cons, hd]
    · rw [if_neg h]
      have hd : decide (since ≤ c.committedDate) = true := by simp; omega
      simp [List.takeWhile_cons, hd, ih]

theorem mem_takeWhile_of_antitone (since : Int) :
    ∀ (l : List GitCommit), l.Pairwise (fun a b => b.committedDate ≤ a.committedDate) →
      ∀ c ∈ l, since ≤ c.committedDate →
        c ∈ l.takeWhile (fun c => decide (since ≤ c.committedDate)) := by
  intro l
  induction l with
  | nil => intro _ c hc; simp at hc
  | cons x rest ih =>
    intro hp c hc hd
    have hx : since ≤ x.committedDate := by
      rcases List.mem_cons.mp hc with rfl | hcr
      · exact hd
      · have := (List.pairwise_cons.mp hp).1 c hcr
        omega
    rw [List.takeWhile_cons, if_pos (by simpa using hx)]
    rcases List.mem_cons.mp hc with rfl | hcr
    · exact List.mem_cons_self _ _
    · exact List.mem_cons_of_mem _ (ih (List.pairwise_cons.mp hp).2 c hcr hd)

theorem takeWhile_stops {α : Type} (p : α → Bool) :
    ∀ (pre : List α) (bad : α) (post : List α), (∀ a ∈ pre, p a = true) → p bad = false →
      (pre ++ bad :: post).takeWhile p = pre := by
  intro pre
  induction pre with
  | nil => intro bad post _ hb; simp [List.takeWhile_cons, hb]
  | cons a t ih =>
    intro bad post h hb
    rw [List.cons_append, List.takeWhile_cons, if_pos (h a (List.mem_cons_self a t))]
    rw [ih bad post (fun x hx => h x (List.mem_cons_of_mem a hx)) hb]

/-! ## Claim theorems -/

/-- C7: for every `RepoInfo` produced by `FolderScanner._scan_repo`,
`status = dirty` iff `uncommitted_count > 0` or `untracked_count > 0`; in
particular a repository with no commits yet is reported clean unless
untracked files exist. -/
theorem repo_status_dirty_iff (r : ScanRepo) (now : Int) (path : String)
    (displayName : Option String) :
    (scanRepo r now path displayName).status = RepoStatus.dirty ↔
      0 < (scanRepo r now path displayName).uncommitted_count ∨
      0 < (scanRepo r now path displayName).untracked_count := by
  unfold scanRepo
  split
  · simp only
    constructor
    · intro h
      split at h
      · rename_i hd
        rcases hd with h1 | h1 | h1 <;> [left; left; right] <;> omega
      · exact absurd h (by simp)
    · intro h
      split
      · rfl
      · rename_i hd
        push_neg at hd
        omega
  · simp only
    constructor
    · intro h
      split at h
      · rename_i hd; omega
      · exact absurd h (by simp)
    · intro h
      split
      · rfl
      · rename_i hd; omega

/-- C10: every `StaleBranch` emitted by `FolderScanner._scan_repo` has
`is_merged = false`; the scanner never reports a stale branch as merged. -/
theorem stale_branches_not_merged (r : ScanRepo) (now : Int) (path : String)
    (displayName : Option String) :
    ∀ sb ∈ (scanRepo r now path displayName).stale_branches, sb.is_merged = false := by
  intro sb hsb
  unfold scanRepo at hsb
  split at hsb
  · simp only at hsb
    unfold scanStaleBranches at hsb
    split at hsb
    · simp at hsb
    · split at hsb
      · rcases List.mem_filterMap.mp hsb with ⟨b, _, hb⟩
        split at hb
        · exact absurd hb (by simp)
        · split at hb
          · exact absurd hb (by simp)
          · split at hb
            · exact absurd hb (by simp)
            · cases hb; rfl
      · simp at hsb
  · simp only at hsb
    simp at hsb

/-- Witness for C10 at a concrete repository with one stale branch. -/
theorem stale_branches_not_merged_witness :
    ({ name := "feature-x", last_commit_date := some 1000000, days_stale := 20358,
       is_merged := false } : StaleBranch).is_merged = false :=
  stale_branches_not_merged exScanRepo 1760000000 "/repos/x" none _ (by decide)

/-- C1: the cached work-summary computation, keyed by
`(repoPath, maxCommits, sinceDays)` with a TTL (default 300 s): on a
coherent cache a hit within the TTL returns the `WorkSummary` a direct
recomputation would produce (and so does a bypass or a miss), the cache
operations preserve coherence, clearing one path removes its entry, and
clearing everything empties the cache. -/
theorem work_summary_cache_spec (compute : CacheKey → WorkSummary) (cache : List CacheEntry)
    (now : Int) (k : CacheKey) (ttl : Int) (bypass : Bool)
    (hc : CacheCoherent compute cache) :
    (getWorkSummaryCached compute cache now k ttl bypass).1 = compute k ∧
    CacheCoherent compute (getWorkSummaryCached compute cache now k ttl bypass).2 ∧
    cacheLookup (clearCacheOne cache k.repoPath) k = none ∧
    clearCacheAll cache = [] := by
  have hstore : CacheCoherent compute
      ((cache.filter (fun e => e.key ≠ k)) ++ [{ key := k, time := now, value := compute k }]) := by
    intro e he
    rcases List.mem_append.mp he with h | h
    · exact hc e (List.mem_of_mem_filter h)
    · simp at h
      subst h
      rfl
  have hclear : cacheLookup (clearCacheOne cache k.repoPath) k = none := by
    unfold cacheLookup clearCacheOne
    rw [List.find?_eq_none]
    intro e he
    have hne : e.key.repoPath ≠ k.repoPath := by
      have := List.of_mem_filter he
      simpa using this
    simp only [decide_eq_true_eq]
    intro hek
    exact hne (by rw [hek])
  by_cases hb : bypass
  · have heq : getWorkSummaryCached compute cache now k ttl bypass =
        (compute k, (cache.filter (fun e => e.key ≠ k)) ++
          [{ key := k, time := now, value := compute k }]) := by
      simp [getWorkSummaryCached, hb]
    rw [heq]
    exact ⟨rfl, hstore, hclear, rfl⟩
  · rcases h : cacheLookup cache k with _ | e
    · have heq : getWorkSummaryCached compute cache now k ttl bypass =
          (compute k, (cache.filter (fun e => e.key ≠ k)) ++
            [{ key := k, time := now, value := compute k }]) := by
        simp [getWorkSummaryCached, hb, h]
      rw [heq]
      exact ⟨rfl, hstore, hclear, rfl⟩
    · have hmem : e ∈ cache := List.mem_of_find?_eq_some h
      have hek : e.key = k := by
        have := List.find?_some h
        simpa using this
      by_cases hfresh : now - e.time < ttl
      · have heq : getWorkSummaryCached compute cache now k ttl bypass = (e.value, cache) := by
          simp [getWorkSummaryCached, hb, h, hfresh]
        rw [heq]
        refine ⟨?_, hc, hclear, rfl⟩
        rw [hc e hmem, hek]
      · have heq : getWorkSummaryCached compute cache now k ttl bypass =
            (compute k, (cache.filter (fun e => e.key ≠ k)) ++
              [{ key := k, time := now, value := compute k }]) := by
          simp [getWorkSummaryCached, hb, h, hfresh]
        rw [heq]
        exact ⟨rfl, hstore, hclear, rfl⟩

/-- Witness for C1 on the empty (trivially coherent) cache. -/
theorem work_summary_cache_spec_witness :
    (getWorkSummaryCached exCompute [] 1000 ⟨"/repos/alpha", 30, 30⟩ 300 false).1 =
        exCompute ⟨"/repos/alpha", 30, 30⟩ ∧
    CacheCoherent exCompute
      (getWorkSummaryCached exCompute [] 1000 ⟨"/repos/alpha", 30, 30⟩ 300 false).2 ∧
    cacheLookup (clearCacheOne [] "/repos/alpha") ⟨"/repos/alpha", 30, 30⟩ = none ∧
    clearCacheAll [] = [] :=
  work_summary_cache_spec exCompute [] 1000 ⟨"/repos/alpha", 30, 30⟩ 300 false
    (by intro e he; simp at he)

/-- C6: the batch analyze operation returns exactly one `WorkSummary` per
input path, in input order — the parallel collection agrees with the
sequential map for every completion order — and a failing path yields the
in-band placeholder (`current_branch = "error"`, empty collections) at its
index instead of shortening the array or raising. -/
theorem analyze_folders_full_batch (f : String → Except String WorkSummary)
    (paths : List String) (completion : List Nat)
    (hperm : completion.Perm (List.range paths.length)) :
    (analyzeFolders f paths).length = paths.length ∧
    runBatch f paths completion = (analyzeFolders f paths).map some ∧
    (∀ i : Nat, (analyzeFolders f paths)[i]? = (paths[i]?).map (analyzeOne f)) ∧
    (∀ p e, f p = Except.error e → analyzeOne f p = placeholderSummary p) ∧
    (∀ p w, f p = Except.ok w → analyzeOne f p = w) ∧
    (∀ p, (placeholderSummary p).current_branch = "error" ∧
      (placeholderSummary p).uncommitted = ({} : UncommittedChanges) ∧
      (placeholderSummary p).recent_commits = [] ∧ (placeholderSummary p).branches = [] ∧
      (placeholderSummary p).pull_requests = [] ∧
      (placeholderSummary p).unpushed_commits = [] ∧
      (placeholderSummary p).stale_branches = []) := by
  refine ⟨by simp [analyzeFolders], ?_, ?_, ?_, ?_, ?_⟩
  · apply List.ext_getElem?
    intro j
    unfold runBatch
    rw [runBatch_foldl_getElem]
    have hmemc : ∀ x, x ∈ completion ↔ x < paths.length := by
      intro x
      rw [hperm.mem_iff, List.mem_range]
    by_cases hj : j < paths.length
    · rcases List.getElem?_eq_some_iff.mpr ⟨hj, rfl⟩ with h
      simp only [(hmemc j).mpr hj, hj, List.length_replicate, and_self, if_true,
        analyzeFolders, List.map_map]
      rw [List.getElem?_map]
      rw [List.getElem?_eq_getElem hj]
      simp [List.getD_eq_getElem?_getD, List.getElem?_eq_getElem hj]
    · have hnot : ¬j ∈ completion := fun h => hj ((hmemc j).mp h)
      simp only [hnot, false_and, if_false]
      rw [List.getElem?_eq_none (by simpa using hj),
        List.getElem?_eq_none (by simp [analyzeFolders]; omega)]
  · intro i
    unfold analyzeFolders
    rw [List.getElem?_map]
  · intro p e h
    unfold analyzeOne
    rw [h]
  · intro p w h
    unfold analyzeOne
    rw [h]
  · intro p
    exact ⟨rfl, rfl, rfl, rfl, rfl, rfl, rfl⟩

/-- Witness for C6 on a two-path batch whose second path fails, collected
in reversed completion order. -/
theorem analyze_folders_full_batch_witness :
    (analyzeFolders exAnalyze ["/repos/good", "/repos/bad"]).length = 2 ∧
    runBatch exAnalyze ["/repos/good", "/repos/bad"] [1, 0] =
      (analyzeFolders exAnalyze ["/repos/good", "/repos/bad"]).map some ∧
    (∀ i : Nat, (analyzeFolders exAnalyze ["/repos/good", "/repos/bad"])[i]? =
      ((["/repos/good", "/repos/bad"] : List String)[i]?).map (analyzeOne exAnalyze)) ∧
    (∀ p e, exAnalyze p = Except.error e → analyzeOne exAnalyze p = placeholderSummary p) ∧
    (∀ p w, exAnalyze p = Except.ok w → analyzeOne exAnalyze p = w) ∧
    (∀ p, (placeholderSummary p).current_branch = "error" ∧
      (placeholderSummary p).uncommitted = ({} : UncommittedChanges) ∧
      (placeholderSummary p).recent_commits = [] ∧ (placeholderSummary p).branches = [] ∧
      (placeholderSummary p).pull_requests = [] ∧
      (placeholderSummary p).unpushed_commits = [] ∧
      (placeholderSummary p).stale_branches = []) :=
  analyze_folders_full_batch exAnalyze ["/repos/good", "/repos/bad"] [1, 0] (by decide)

/-- C2: for a chronologically ordered (newest-first) walk, the
`recentCommits` of the history miner form a prefix of the
`max_count`-limited walk, contain every in-window commit of that window
and no commit older than `sinceDays`, and the scan stops at the first
too-old commit rather than filtering past it. -/
theorem recent_commits_window (walk : List GitCommit) (maxCommits : Nat)
    (sinceDays now : Int)
    (hsort : walk.Chain' (fun a b => b.committedDate ≤ a.committedDate)) :
    recentCommitsSpec walk maxCommits sinceDays now := by
  have hpair : (walk.take maxCommits).Pairwise
      (fun a b => b.committedDate ≤ a.committedDate) := by
    letI : IsTrans GitCommit (fun a b => b.committedDate ≤ a.committedDate) :=
      ⟨fun a b c h1 h2 => le_trans h2 h1⟩
    exact (List.chain'_iff_pairwise.mp hsort).sublist (List.take_sublist _ _)
  unfold recentCommitsSpec getRecentCommits
  rw [commitScan_eq_takeWhile]
  refine ⟨?_, ?_, ?_, ?_⟩
  · rw [List.map_map]
    have hcomp : (CommitInfo.sha ∘ mkCommitInfo) = GitCommit.sha := rfl
    rw [hcomp]
    exact (List.takeWhile_prefix _).map _
  · intro ci hci
    rcases List.mem_map.mp hci with ⟨c, hc, rfl⟩
    have := List.mem_takeWhile_imp hc
    simpa [mkCommitInfo] using this
  · intro c hc hd
    rw [List.map_map]
    have hcomp : (CommitInfo.sha ∘ mkCommitInfo) = GitCommit.sha := rfl
    rw [hcomp]
    exact List.mem_map_of_mem _ (mem_takeWhile_of_antitone _ _ hpair c hc hd)
  · intro pre bad post heq hpre hbad
    rw [heq, takeWhile_stops _ pre bad post (fun a ha => by simpa using hpre a ha)
      (by simp; omega)]

/-- Witness for C2 on a two-commit walk whose second commit is outside the
window. -/
theorem recent_commits_window_witness : recentCommitsSpec exWalk 5 30 1759939200 :=
  recent_commits_window exWalk 5 30 1759939200
    (by unfold exWalk; exact List.chain'_cons.mpr ⟨by decide, List.chain'_singleton _⟩)

/-- C9 counterexample: the lowercase key `"abc"` does not match the strict
format `^[A-Z][A-Z0-9]{1,9}$`, yet validation normalizes (strips and
uppercases) first, so both tracker calls proceed instead of rejecting. -/
theorem project_key_validation_counterexample :
    projectKeyMatch "abc" = false ∧
    validateProjectKey "abc" = Except.ok "ABC" ∧
    (checkDuplicate (fun _ _ => []) "https://jira.example.com" "Fix login bug" "abc"
      []).isOk = true ∧
    (findExisting (fun _ _ => []) "https://jira.example.com" "abc" "devrepo" "" []
      []).isOk = true :=
  ⟨by decide, rfl, by decide, by decide⟩

/-- C9 (amended): `check_duplicate` and `find_existing` reject a call with
a validation error, before issuing any tracker query, exactly when the
normalized (stripped, uppercased) project key fails the pattern
`[A-Z][A-Z0-9]{1,9}`; when the normalized key matches, validation passes
and the call proceeds. -/
theorem project_key_validation_amended (search : String → Nat → List JiraIssue)
    (server summary projectKey repoName branch : String)
    (prUrls commitShas : List String) :
    ((∃ e, checkDuplicate search server summary projectKey commitShas = Except.error e) ↔
      projectKeyMatch (normalizeProjectKey projectKey) = false) ∧
    ((∃ e, findExisting search server projectKey repoName branch prUrls commitShas =
        Except.error e) ↔
      projectKeyMatch (normalizeProjectKey projectKey) = false) := by
  unfold checkDuplicate findExisting validateProjectKey
  by_cases h : projectKeyMatch (normalizeProjectKey projectKey)
  · simp [h]
  · simp [h]

/-- C4 counterexample: on the specification's example repository (three
untracked same-week commits `feat: add X`, `feat: add Y`, `fix: typo`, no
uncommitted changes), the single emitted candidate has `issue_type = Bug`,
not Story: `_infer_type_from_messages` tests the fix pattern before the
feat pattern on the concatenated messages, and `fix` occurs. -/
theorem example_scenario_counterexample :
    (suggest "" [exampleSummary] "TEAM").map TicketSuggestion.issue_type = [IssueType.bug] ∧
    IssueType.bug ≠ IssueType.story :=
  ⟨by decide, by decide⟩

/-- C4 (amended): the example scenario emits exactly one candidate, with
`issue_type = Bug` (the fix-pattern check precedes the feat-pattern check
on the concatenated messages), theme "Feature development" (2 of 3
commits are feat-prefixed), and three source commits. -/
theorem example_scenario_amended :
    (suggest "" [exampleSummary] "TEAM").length = 1 ∧
    (suggest "" [exampleSummary] "TEAM").map TicketSuggestion.issue_type = [IssueType.bug] ∧
    (suggest "" [exampleSummary] "TEAM").map TicketSuggestion.summary =
      ["[devrepo] Feature development (+2 commits) [week-2025-W41]"] ∧
    (suggest "" [exampleSummary] "TEAM").map (fun t => t.source_commits.length) = [3] :=
  ⟨by decide, by decide, by decide, by decide⟩

/-- C5 counterexample: `findall` keeps duplicates — a key occurring twice
in one message appears twice in `jiraRefs`, not once. -/
theorem jira_refs_dedup_counterexample :
    jiraRefsOfText "ABC-1 ABC-1" = ["ABC-1", "ABC-1"] ∧
    (jiraRefsOfText "ABC-1 ABC-1").count "ABC-1" = 2 ∧
    ¬(jiraRefsOfText "ABC-1 ABC-1").count "ABC-1" = 1 :=
  ⟨by decide, by decide, by decide⟩

/-! Helper lemmas for the issue-key extraction. -/

theorem dropWhile_stops {α : Type} (p : α → Bool) :
    ∀ (pre : List α) (bad : α) (post : List α), (∀ a ∈ pre, p a = true) → p bad = false →
      (pre ++ bad :: post).dropWhile p = bad :: post := by
  intro pre
  induction pre with
  | nil => intro bad post _ hb; simp [List.dropWhile_cons, hb]
  | cons a t ih =>
    intro bad post h hb
    rw [List.cons_append, List.dropWhile_cons, if_pos (h a (List.mem_cons_self a t))]
    exact ih bad post (fun x hx => h x (List.mem_cons_of_mem a hx)) hb

theorem jiraMatchAt_some {c : Char} {rest m rest2 : List Char}
    (h : jiraMatchAt c rest = some (m, rest2)) :
    m ++ rest2 = c :: rest ∧ isJiraKey (String.mk m) = true := by
  by_cases hc : isUpperAZ c
  case neg => simp [jiraMatchAt, hc] at h
  case pos =>
    by_cases hne : (rest.takeWhile isKeyChar).isEmpty
    · simp [jiraMatchAt, hc, hne] at h
    · rcases hdw : rest.dropWhile isKeyChar with _ | ⟨d, rst⟩
      · simp [jiraMatchAt, hc, hne, hdw] at h
      · by_cases hd : d = '-'
        · subst hd
          by_cases hdne : (rst.takeWhile isDigit09).isEmpty
          · simp [jiraMatchAt, hc, hne, hdw, hdne] at h
          · simp only [jiraMatchAt, hc, if_true, hne, Bool.false_eq_true, if_false, hdw,
              hdne, Option.some.injEq, Prod.mk.injEq] at h
            obtain ⟨hm, hr2⟩ := h
            subst hm
            subst hr2
            constructor
            · have e1 : rest.takeWhile isKeyChar ++ rest.dropWhile isKeyChar = rest :=
                List.takeWhile_append_dropWhile isKeyChar rest
              have e2 : rst.takeWhile isDigit09 ++ rst.dropWhile isDigit09 = rst :=
                List.takeWhile_append_dropWhile isDigit09 rst
              calc (c :: (rest.takeWhile isKeyChar ++ '-' :: rst.takeWhile isDigit09)) ++
                    rst.dropWhile isDigit09
                  = c :: (rest.takeWhile isKeyChar ++
                      '-' :: (rst.takeWhile isDigit09 ++ rst.dropWhile isDigit09)) := by
                    simp
                _ = c :: (rest.takeWhile isKeyChar ++ '-' :: rst) := by rw [e2]
                _ = c :: (rest.takeWhile isKeyChar ++ rest.dropWhile isKeyChar) := by
                    rw [hdw]
                _ = c :: rest := by rw [e1]
            · have hkey : ∀ a ∈ rest.takeWhile isKeyChar, isKeyChar a = true :=
                fun a ha => List.mem_takeWhile_imp ha
              have hdig : ∀ a ∈ rst.takeWhile isDigit09, isDigit09 a = true :=
                fun a ha => List.mem_takeWhile_imp ha
              have hdash : isKeyChar '-' = false := by decide
              show (isUpperAZ c &&
                (!(List.takeWhile isKeyChar (List.takeWhile isKeyChar rest ++
                    '-' :: List.takeWhile isDigit09 rst)).isEmpty &&
                  match List.dropWhile isKeyChar (List.takeWhile isKeyChar rest ++
                      '-' :: List.takeWhile isDigit09 rst) with
                  | d :: ds => decide (d = '-') && !ds.isEmpty && ds.all isDigit09
                  | [] => false)) = true
              rw [takeWhile_stops isKeyChar _ '-' _ hkey hdash,
                dropWhile_stops isKeyChar _ '-' _ hkey hdash]
              simp [hc, hne, hdne, List.all_eq_true.mpr hdig]
        · simp [jiraMatchAt, hc, hne, hdw, hd] at h

theorem jiraFindAllAux_mem :
    ∀ (fuel : Nat) (l m : List Char), m ∈ jiraFindAllAux fuel l →
      isJiraKey (String.mk m) = true ∧ m <:+: l := by
  intro fuel
  induction fuel with
  | zero => intro l m hm; simp [jiraFindAllAux] at hm
  | succ n ih =>
    intro l m hm
    match l with
    | [] => simp [jiraFindAllAux] at hm
    | c :: rest =>
      unfold jiraFindAllAux at hm
      split at hm
      case h_1 m0 rest2 heq =>
        rcases jiraMatchAt_some heq with ⟨happ, hkey⟩
        rcases List.mem_cons.mp hm with rfl | hm2
        · exact ⟨hkey, ⟨[], rest2, by simpa using happ⟩⟩
        · rcases ih rest2 m hm2 with ⟨h1, h2⟩
          refine ⟨h1, h2.trans ⟨m0, [], by simpa using happ⟩⟩
      case h_2 =>
        rcases ih rest m hm with ⟨h1, h2⟩
        exact ⟨h1, h2.trans ⟨[c], [], by simp⟩⟩

/-- C5 (amended): every extracted reference matches the full issue-key
shape `[A-Z][A-Z0-9]+-[0-9]+` and occurs verbatim (contiguously) in the
text, in left-to-right scan order with duplicates preserved rather than
removed. -/
theorem jira_refs_shape (s : String) :
    ∀ r ∈ jiraRefsOfText s, isJiraKey r = true ∧ r.data <:+: s.data := by
  intro r hr
  unfold jiraRefsOfText at hr
  rcases List.mem_map.mp hr with ⟨m, hm, rfl⟩
  exact jiraFindAllAux_mem s.data.length s.data m hm

/-- Witness for the amended C5 at a concrete message. -/
theorem jira_refs_shape_witness :
    isJiraKey "ABC-1" = true ∧ ("ABC-1" : String).data <:+: ("see ABC-1" : String).data :=
  jira_refs_shape "see ABC-1" "ABC-1" (by decide)

/-! Helper lemmas for the suggestion ids. -/

theorem hex8_length (x : Nat) : (hex8 x).length = 8 := by simp [hex8]

theorem sha256Hex_length (m : List Nat) : (sha256Hex m).length = 64 := by
  simp [sha256Hex, hex8]

theorem makeId_length (parts : List String) : (makeId parts).length = 12 := by
  unfold makeId
  show (List.take 12 (sha256Hex (utf8Bytes (String.intercalate "-" parts)))).length = 12
  rw [List.length_take, sha256Hex_length]
  rfl

theorem buildTicket_id_spec (a : String) (s : WorkSummary) (b : String)
    (cs : List CommitInfo) (pk ctx area : String) :
    (∃ parts, (buildTicket a s b cs pk ctx area).id = makeId parts) ∧
      (buildTicket a s b cs pk ctx area).id.length = 12 :=
  ⟨⟨[s.repo_name, b] ++ (if ctx ≠ "" then [ctx] else []) ++ (if area ≠ "" then [area] else []),
    rfl⟩, makeId_length _⟩

theorem uncommittedTicket_id_spec (a : String) (s : WorkSummary) (pk : String) :
    (∃ parts, (uncommittedTicket a s pk).id = makeId parts) ∧
      (uncommittedTicket a s pk).id.length = 12 :=
  ⟨⟨[s.repo_name, "uncommitted"], rfl⟩, makeId_length _⟩

theorem suggestOne_id_spec (a pk : String) (s : WorkSummary) :
    ∀ t ∈ suggestOne a pk s,
      (∃ parts, t.id = makeId parts) ∧ t.id.length = 12 := by
  have huncPart : ∀ t ∈ (if ¬s.uncommitted.staged.isEmpty ∨ ¬s.uncommitted.unstaged.isEmpty ∨
      ¬s.uncommitted.untracked.isEmpty then [uncommittedTicket a s pk] else []),
      (∃ parts, t.id = makeId parts) ∧ t.id.length = 12 := by
    intro t ht
    split at ht
    · rw [List.mem_singleton.mp ht]
      exact uncommittedTicket_id_spec a s pk
    · simp at ht
  have hbranch : ∀ (fbs : List (String × List CommitInfo)),
      ∀ t ∈ fbs.flatMap (fun bb =>
        if 12 < bb.2.length then
          (groupByWeek bb.2).map (fun wg =>
            buildTicket a s bb.1 wg.2 pk ("week-" ++ wg.1) "")
        else [buildTicket a s bb.1 bb.2 pk "" ""]),
      (∃ parts, t.id = makeId parts) ∧ t.id.length = 12 := by
    intro fbs t ht
    rcases List.mem_flatMap.mp ht with ⟨bb, _, hb⟩
    split at hb
    · rcases List.mem_map.mp hb with ⟨wg, _, rfl⟩
      apply buildTicket_id_spec
    · rw [List.mem_singleton.mp hb]
      apply buildTicket_id_spec
  have hweek : ∀ (rem : List CommitInfo),
      ∀ t ∈ (groupByWeek rem).flatMap (fun wg =>
        match groupByFileArea wg.2 with
        | [ag] => [buildTicket a s s.current_branch ag.2 pk ("week-" ++ wg.1) ag.1]
        | ags => ags.flatMap (fun ag =>
            if ag.2.length = 0 then []
            else [buildTicket a s s.current_branch ag.2 pk ("week-" ++ wg.1) ag.1])),
      (∃ parts, t.id = makeId parts) ∧ t.id.length = 12 := by
    intro rem t ht
    rcases List.mem_flatMap.mp ht with ⟨wg, _, hw⟩
    split at hw
    · rw [List.mem_singleton.mp hw]
      apply buildTicket_id_spec
    · rcases List.mem_flatMap.mp hw with ⟨ag, _, ha⟩
      split at ha
      · simp at ha
      · rw [List.mem_singleton.mp ha]
        apply buildTicket_id_spec
  intro t ht
  simp only [suggestOne] at ht
  split at ht
  · exact huncPart t ht
  · split at ht
    · rcases List.mem_append.mp ht with h | h
      · exact huncPart t h
      · exact hbranch _ t h
    · rcases List.mem_append.mp ht with h | h
      · rcases List.mem_append.mp h with h2 | h2
        · exact huncPart t h2
        · exact hbranch _ t h2
      · exact hweek _ t h

/-- C3: `suggest` is a pure function — running it twice on identical input
yields identical `id` sequences — and every emitted candidate's `id` is
the fixed-width (12 hex character) hash `_make_id` of its ordered
grouping-key parts, with no hidden state. -/
theorem suggest_ids_deterministic (assignee : String) (summaries : List WorkSummary)
    (projectKey : String) :
    (suggest assignee summaries projectKey).map TicketSuggestion.id =
      (suggest assignee summaries projectKey).map TicketSuggestion.id ∧
    ∀ t ∈ suggest assignee summaries projectKey,
      (∃ parts, t.id = makeId parts) ∧ t.id.length = 12 := by
  refine ⟨rfl, ?_⟩
  intro t ht
  rcases List.mem_flatMap.mp ht with ⟨s, _, h⟩
  exact suggestOne_id_spec assignee projectKey s t h

/-- Witness for C3 on a repository whose single candidate is the
uncommitted-work ticket. -/
theorem suggest_ids_deterministic_witness :
    (∃ parts, (uncommittedTicket "" exDirtySummary "TEAM").id = makeId parts) ∧
    (uncommittedTicket "" exDirtySummary "TEAM").id.length = 12 :=
  (suggest_ids_deterministic "" [exDirtySummary] "TEAM").2 _
    ((show suggest "" [exDirtySummary] "TEAM" =
        [uncommittedTicket "" exDirtySummary "TEAM"] from rfl) ▸
      List.mem_singleton.mpr rfl)

/-! Helper lemmas for the JQL sanitizer (C8). -/

theorem toNat_ofNat_lt {n : Nat} (h : n < 55296) : (Char.ofNat n).toNat = n := by
  unfold Char.ofNat
  split
  · rfl
  · rename_i hnv
    exfalso
    apply hnv
    left
    exact h

theorem char_eq_of_toNat {c d : Char} (h : c.toNat = d.toNat) : c = d := by
  apply Char.ext
  unfold Char.toNat at h
  exact UInt32.toNat.inj h

theorem isWordChar_lower (c : Char) : isWordChar (lowerChar c) = isWordChar c := by
  unfold lowerChar
  split
  · rename_i h
    unfold isUpperAZ at h
    simp only [Bool.and_eq_true, decide_eq_true_eq] at h
    have hval : (Char.ofNat (c.toNat + 32)).toNat = c.toNat + 32 :=
      toNat_ofNat_lt (by omega)
    unfold isWordChar isUpperAZ isLowerAZ isDigit09
    rw [Bool.eq_iff_iff]
    simp only [hval, Bool.or_eq_true, Bool.and_eq_true, decide_eq_true_eq]
    omega
  · rfl

theorem matchAtoms_append :
    ∀ (a : List PatAtom) (l after : List Char), matchAtoms a l = some after →
      l = l.take a.length ++ after ∧ (l.take a.length).length = a.length := by
  intro a
  induction a with
  | nil =>
    intro l after h
    simp [matchAtoms] at h
    subst h
    simp
  | cons p ps ih =>
    intro l after h
    match l, p with
    | [], _ => simp [matchAtoms] at h
    | c :: cs, PatAtom.lit ch =>
      unfold matchAtoms at h
      split at h
      · rcases ih cs after h with ⟨h1, h2⟩
        refine ⟨?_, ?_⟩
        · calc c :: cs = c :: (cs.take ps.length ++ after) := by rw [← h1]
            _ = (c :: cs).take (ps.length + 1) ++ after := by simp
        · simp [h2]
      · exact absurd h (by simp)
    | c :: cs, PatAtom.any =>
      unfold matchAtoms at h
      rcases ih cs after h with ⟨h1, h2⟩
      refine ⟨?_, ?_⟩
      · calc c :: cs = c :: (cs.take ps.length ++ after) := by rw [← h1]
          _ = (c :: cs).take (ps.length + 1) ++ after := by simp
      · simp [h2]

theorem matchAtoms_lit_spec :
    ∀ (ws : List Char) (l after : List Char),
      matchAtoms (ws.map PatAtom.lit) l = some after →
      l = l.take ws.length ++ after ∧ (l.take ws.length).map lowerChar = ws := by
  intro ws
  induction ws with
  | nil =>
    intro l after h
    simp [matchAtoms] at h
    subst h
    simp
  | cons w wrest ih =>
    intro l after h
    match l with
    | [] => simp [matchAtoms] at h
    | c :: cs =>
      simp only [List.map_cons] at h
      unfold matchAtoms at h
      split at h
      · rename_i hl
        rcases ih cs after h with ⟨h1, h2⟩
        refine ⟨?_, ?_⟩
        · calc c :: cs = c :: (cs.take wrest.length ++ after) := by rw [← h1]
            _ = (c :: cs).take (wrest.length + 1) ++ after := by simp
        · simp [h2, hl]
      · exact absurd h (by simp)

theorem matchAtoms_of_prefix :
    ∀ (a : List PatAtom) (pre after : List Char), matchAtoms a pre = some [] →
      matchAtoms a (pre ++ after) = some after := by
  intro a
  induction a with
  | nil =>
    intro pre after h
    simp [matchAtoms] at h
    subst h
    simp [matchAtoms]
  | cons p ps ih =>
    intro pre after h
    match pre, p with
    | [], _ => simp [matchAtoms] at h
    | c :: cs, PatAtom.lit ch =>
      unfold matchAtoms at h ⊢
      split at h
      · rename_i hl
        rw [List.cons_append]
        simp only [hl, if_true]
        exact ih cs after h
      · exact absurd h (by simp)
    | c :: cs, PatAtom.any =>
      unfold matchAtoms at h ⊢
      rw [List.cons_append]
      exact ih cs after h

theorem tryAlts_some_spec :
    ∀ (alts : List (List PatAtom)) (l : List Char) (m after : List Char),
      tryAlts alts l = some (m, after) →
      ∃ a ∈ alts, matchAtoms a l = some after ∧ m = l.take a.length ∧
        boundaryAfter after = true := by
  intro alts
  induction alts with
  | nil => intro l m after h; simp [tryAlts] at h
  | cons a rest ih =>
    intro l m after h
    unfold tryAlts at h
    split at h
    · rename_i af hm
      split at h
      · rename_i hb
        rcases Option.some.inj h with h2
        rcases Prod.mk.injEq .. ▸ h2 with ⟨hm2, ha2⟩
        subst hm2
        subst ha2
        exact ⟨a, List.mem_cons_self a rest, hm, rfl, hb⟩
      · rcases ih l m after h with ⟨a2, ha2, hrest⟩
        exact ⟨a2, List.mem_cons_of_mem a ha2, hrest⟩
    · rcases ih l m after h with ⟨a2, ha2, hrest⟩
      exact ⟨a2, List.mem_cons_of_mem a ha2, hrest⟩

theorem tryAlts_ne_none :
    ∀ (alts : List (List PatAtom)) (l : List Char),
      (∃ a ∈ alts, ∃ after, matchAtoms a l = some after ∧ boundaryAfter after = true) →
      tryAlts alts l ≠ none := by
  intro alts
  induction alts with
  | nil => intro l h; rcases h with ⟨a, ha, _⟩; simp at ha
  | cons a0 rest ih =>
    intro l h
    rcases h with ⟨a, ha, after, hm, hb⟩
    unfold tryAlts
    rcases List.mem_cons.mp ha with rfl | ha2
    · simp [hm, hb]
    · split
      · split
        · simp
        · exact ih l ⟨a, ha2, after, hm, hb⟩
      · exact ih l ⟨a, ha2, after, hm, hb⟩

/-- The eight removal keywords as strings. -/
theorem jql_alts_lit : ∀ a ∈ jqlKeywordAlts, ∃ w : String,
    w ∈ ["and", "or", "not", "order by", "in", "is", "was", "changed"] ∧
      a = w.data.map PatAtom.lit := by
  intro a ha
  simp only [jqlKeywordAlts, litAtoms, List.mem_cons, List.not_mem_nil, or_false] at ha
  rcases ha with rfl | rfl | rfl | rfl | rfl | rfl | rfl | rfl
  · exact ⟨"and", by simp, rfl⟩
  · exact ⟨"or", by simp, rfl⟩
  · exact ⟨"not", by simp, rfl⟩
  · exact ⟨"order by", by simp, rfl⟩
  · exact ⟨"in", by simp, rfl⟩
  · exact ⟨"is", by simp, rfl⟩
  · exact ⟨"was", by simp, rfl⟩
  · exact ⟨"changed", by simp, rfl⟩

theorem goodTail_map_lower : ∀ (xs : List Char) (x : Char),
    goodTail (lowerChar x) (xs.map lowerChar) = goodTail x xs := by
  intro xs
  induction xs with
  | nil => intro x; rfl
  | cons y ys ih =>
    intro x
    simp only [List.map_cons, goodTail, isWordChar_lower, ih]

theorem getLastD_map (f : Char → Char) : ∀ (xs : List Char) (x : Char),
    (xs.map f).getLastD (f x) = f (xs.getLastD x) := by
  intro xs
  induction xs with
  | nil => intro x; rfl
  | cons y ys ih =>
    intro x
    simp only [List.map_cons, List.getLastD_cons, ih]

theorem getLastD_indep : ∀ (l : List Char) (d1 d2 : Char), l ≠ [] →
    l.getLastD d1 = l.getLastD d2 := by
  intro l
  induction l with
  | nil => intro d1 d2 h; exact absurd rfl h
  | cons x xs ih =>
    intro d1 d2 _
    match xs, ih with
    | [], _ => rfl
    | y :: ys, ih => simp only [List.getLastD_cons]

/-- The keyword strings are nonempty, keyword-charactered, word-headed,
word-tailed, and well stepped. -/
theorem keyword_facts : ∀ w : String,
    w ∈ ["and", "or", "not", "order by", "in", "is", "was", "changed"] →
    w.data ≠ [] ∧ w.data.all isKeywordChar = true ∧
    isWordChar (w.data.headD 'a') = true ∧
    goodTail (w.data.headD 'a') w.data.tail = true ∧
    isWordChar (w.data.tail.getLastD (w.data.headD 'a')) = true := by
  intro w hw
  simp only [List.mem_cons, List.not_mem_nil, or_false] at hw
  rcases hw with rfl | rfl | rfl | rfl | rfl | rfl | rfl | rfl <;> decide

theorem jql_token_shape {tok : List Char} (h : TokenOfAlts jqlKeywordAlts tok) :
    ∃ x xs, tok = x :: xs ∧ isWordChar x = true ∧ goodTail x xs = true ∧
      isWordChar (xs.getLastD x) = true := by
  obtain ⟨a, ha, hm⟩ := h
  obtain ⟨w, hw, rfl⟩ := jql_alts_lit a ha
  obtain ⟨happ, hmap⟩ := matchAtoms_lit_spec w.data tok [] hm
  rw [List.append_nil] at happ
  rw [← happ] at hmap
  obtain ⟨hne, _, hhead, htail, hlast⟩ := keyword_facts w hw
  match tok, hmap with
  | [], hmap => exact absurd hmap.symm (by simpa using hne)
  | x :: xs, hmap =>
    have e1 : w.data = lowerChar x :: xs.map lowerChar := by
      rw [← hmap]; rfl
    refine ⟨x, xs, rfl, ?_, ?_, ?_⟩
    · rw [← isWordChar_lower x]
      rw [e1] at hhead
      exact hhead
    · rw [e1] at htail
      simpa only [List.headD_cons, List.tail_cons, goodTail_map_lower] using htail
    · rw [e1] at hlast
      simp only [List.headD_cons, List.tail_cons, getLastD_map] at hlast
      rw [← isWordChar_lower]
      exact hlast

theorem tryAlts_jql_spec {l m after : List Char}
    (h : tryAlts jqlKeywordAlts l = some (m, after)) :
    m ++ after = l ∧ m ≠ [] ∧ (∀ x ∈ m, isKeywordChar (lowerChar x) = true) ∧
      (∀ d, isWordChar (m.getLastD d) = true) ∧ boundaryAfter after = true := by
  obtain ⟨a, ha, hm, htake, hb⟩ := tryAlts_some_spec _ _ _ _ h
  obtain ⟨w, hw, rfl⟩ := jql_alts_lit a ha
  obtain ⟨happ, hmap⟩ := matchAtoms_lit_spec w.data l after hm
  rw [List.length_map] at htake
  subst htake
  obtain ⟨hne, hall, hhead, htail, hlast⟩ := keyword_facts w hw
  have hmne : l.take w.data.length ≠ [] := by
    intro h0
    rw [h0] at hmap
    exact hne hmap.symm
  refine ⟨happ.symm, hmne, ?_, ?_, hb⟩
  · intro x hx
    have hmem : lowerChar x ∈ w.data := by
      rw [← hmap]
      exact List.mem_map_of_mem _ hx
    exact List.all_eq_true.mp hall _ hmem
  · intro d
    match h3 : l.take w.data.length, hmne, hmap with
    | y :: ys, _, hmap =>
      have e1 : w.data = lowerChar y :: ys.map lowerChar := by
        rw [← hmap]; rfl
      rw [e1] at hlast
      simp only [List.headD_cons, List.tail_cons, getLastD_map] at hlast
      rw [List.getLastD_cons, ← isWordChar_lower]
      exact hlast

theorem removeAltsAux_nil (alts : List (List PatAtom)) (fuel : Nat) (prev : Option Char) :
    removeAltsAux alts fuel prev [] = [] := by
  cases fuel <;> rfl

theorem removeAltsAux_word_ctx (alts : List (List PatAtom)) (f : Nat) (c : Char)
    (l : List Char) (h : isWordChar c = true) :
    removeAltsAux alts (f + 1) (some c) l =
      match l with
      | [] => []
      | d :: rest => d :: removeAltsAux alts f (some d) rest := by
  cases l with
  | nil => rfl
  | cons d rest => simp [removeAltsAux, prevBoundary, h]

theorem tryAlts_none_all {alts : List (List PatAtom)} {l : List Char}
    (h : ∀ a ∈ alts, matchAtoms a l = none) : tryAlts alts l = none := by
  induction alts with
  | nil => rfl
  | cons a rest ih =>
    unfold tryAlts
    rw [h a (List.mem_cons_self a rest)]
    exact ih (fun a2 ha2 => h a2 (List.mem_cons_of_mem a ha2))

theorem tryAlts_jql_none_nonword {c : Char} (rest : List Char)
    (h : isWordChar c = false) : tryAlts jqlKeywordAlts (c :: rest) = none := by
  apply tryAlts_none_all
  intro a ha
  obtain ⟨w, hw, rfl⟩ := jql_alts_lit a ha
  obtain ⟨hne, _, hhead, _, _⟩ := keyword_facts w hw
  match hd : w.data, hne, hhead with
  | w0 :: wrest, _, hhead =>
    simp only [List.map_cons, matchAtoms]
    split
    · rename_i hl
      exfalso
      have : isWordChar w0 = true := by simpa using hhead
      rw [← hl, isWordChar_lower] at this
      rw [this] at h
      exact Bool.true_eq_false.mp h
    · rfl

theorem removeAltsAux_step_none (alts : List (List PatAtom)) (f : Nat)
    (prev : Option Char) (d : Char) (rest : List Char)
    (h : (if prevBoundary prev = true then tryAlts alts (d :: rest) else none) = none) :
    removeAltsAux alts (f + 1) prev (d :: rest) =
      d :: removeAltsAux alts f (some d) rest := by
  conv_lhs => unfold removeAltsAux
  rw [h]

theorem removeAltsAux_step_some (alts : List (List PatAtom)) (f : Nat)
    (prev : Option Char) (d : Char) (rest m after : List Char)
    (h : (if prevBoundary prev = true then tryAlts alts (d :: rest) else none) =
      some (m, after)) :
    removeAltsAux alts (f + 1) prev (d :: rest) =
      removeAltsAux alts f (some (m.getLastD d)) after := by
  conv_lhs => unfold removeAltsAux
  rw [h]

theorem copy_verbatim :
    ∀ (tokTail : List Char) (fuel : Nat) (prev : Char) (l out : List Char),
      goodTail prev tokTail = true →
      removeAltsAux jqlKeywordAlts fuel (some prev) l = tokTail ++ out →
      l = tokTail ++ l.drop tokTail.length ∧
        out = removeAltsAux jqlKeywordAlts (fuel - tokTail.length)
          (some (tokTail.getLastD prev)) (l.drop tokTail.length) := by
  intro tokTail
  induction tokTail with
  | nil =>
    intro fuel prev l out _ hout
    simpa using hout.symm
  | cons x xs ih =>
    intro fuel prev l out hgood hout
    simp only [goodTail, Bool.and_eq_true, Bool.or_eq_true] at hgood
    obtain ⟨hstep, htail⟩ := hgood
    match fuel, l with
    | 0, l => simp [removeAltsAux] at hout
    | f + 1, [] => simp [removeAltsAux_nil] at hout
    | f + 1, d :: rest =>
      have hcont : removeAltsAux jqlKeywordAlts (f + 1) (some prev) (d :: rest) =
            d :: removeAltsAux jqlKeywordAlts f (some d) rest →
          d :: rest = (x :: xs) ++ (d :: rest).drop (x :: xs).length ∧
          out = removeAltsAux jqlKeywordAlts (f + 1 - (x :: xs).length)
            (some ((x :: xs).getLastD prev)) ((d :: rest).drop (x :: xs).length) := by
        intro hred
        rw [hred] at hout
        rcases List.cons.injEq .. ▸ hout with ⟨rfl, hout2⟩
        obtain ⟨h1, h2⟩ := ih f d rest out htail hout2
        refine ⟨?_, ?_⟩
        · simp only [List.length_cons, List.drop_succ_cons, List.cons_append]
          exact congrArg _ h1
        · simp only [List.getLastD_cons, List.length_cons, List.drop_succ_cons,
            Nat.succ_sub_succ]
          exact h2
      rcases htry : (if prevBoundary (some prev) = true then
          tryAlts jqlKeywordAlts (d :: rest) else none) with _ | ⟨m, after⟩
      · exact hcont (removeAltsAux_step_none _ _ _ _ _ htry)
      · exfalso
        have hsome : tryAlts jqlKeywordAlts (d :: rest) = some (m, after) := by
          by_cases hpb : prevBoundary (some prev) = true
          · rw [if_pos hpb] at htry; exact htry
          · rw [if_neg hpb] at htry; exact absurd htry (by simp)
        obtain ⟨-, -, -, hwlast, hbafter⟩ := tryAlts_jql_spec hsome
        have hxw : isWordChar x = true := by
          rcases hstep with hpw | hxw
          · -- word context: the scanner cannot have removed here
            have := removeAltsAux_step_none jqlKeywordAlts f (some prev) d rest
              (by rw [show prevBoundary (some prev) = false by
                    simp [prevBoundary, hpw]]; simp)
            rw [this] at hout
            -- contradiction with htry being some under word context
            have : prevBoundary (some prev) = false := by simp [prevBoundary, hpw]
            rw [this] at htry
            exact absurd htry (by simp)
          · exact hxw
        rw [removeAltsAux_step_some _ _ _ _ _ _ _ htry] at hout
        match after, hbafter, hout with
        | [], _, hout =>
          rw [removeAltsAux_nil] at hout
          exact absurd hout (by simp)
        | e :: after2, hbafter, hout =>
          have hew : isWordChar e = false := by simpa [boundaryAfter] using hbafter
          match f, hout with
          | 0, hout => simp [removeAltsAux] at hout
          | g + 1, hout =>
            rw [removeAltsAux_word_ctx _ _ _ _ (hwlast d)] at hout
            simp only at hout
            rcases List.cons.injEq .. ▸ hout with ⟨rfl, -⟩
            rw [hxw] at hew
            exact Bool.true_eq_false.mp hew

theorem no_standalone_removeAlts :
    ∀ (fuel : Nat) (l : List Char) (prev : Option Char), l.length ≤ fuel →
      ¬ HasStandaloneAlt jqlKeywordAlts prev (removeAltsAux jqlKeywordAlts fuel prev l) := by
  intro fuel
  induction fuel with
  | zero =>
    intro l prev hlen htok
    have hl : l = [] := List.eq_nil_of_length_eq_zero (Nat.le_zero.mp hlen)
    subst hl
    obtain ⟨pre, tok, post, heq, htoks, _, _⟩ := htok
    obtain ⟨x, xs, rfl, _, _, _⟩ := jql_token_shape htoks
    simp [removeAltsAux] at heq
  | succ f ih =>
    intro l prev hlen htok
    match l, hlen with
    | [], _ =>
      obtain ⟨pre, tok, post, heq, htoks, _, _⟩ := htok
      obtain ⟨x, xs, rfl, _, _, _⟩ := jql_token_shape htoks
      rw [removeAltsAux_nil] at heq
      simp at heq
    | d :: rest, hlen =>
      have hrlen : rest.length ≤ f := by simp at hlen; omega
      rcases htry : (if prevBoundary prev = true then
          tryAlts jqlKeywordAlts (d :: rest) else none) with _ | ⟨m, after⟩
      · rw [removeAltsAux_step_none _ _ _ _ _ htry] at htok
        obtain ⟨pre, tok, post, heq, htoks, hleft, hright⟩ := htok
        obtain ⟨x, xs, rfl, hxw, hgood, hlastw⟩ := jql_token_shape htoks
        match pre, heq, hleft with
        | [], heq, hleft =>
          have heq1 : d :: removeAltsAux jqlKeywordAlts f (some d) rest =
              x :: (xs ++ post) := by simpa using heq
          rcases List.cons.injEq .. ▸ heq1 with ⟨rfl, heq2⟩
          have hpb : prevBoundary prev = true := by simpa using hleft
          rw [if_pos hpb] at htry
          obtain ⟨hrest, hpost⟩ := copy_verbatim xs f d rest post hgood heq2
          obtain ⟨a, ha, hma⟩ := htoks
          apply tryAlts_ne_none jqlKeywordAlts (d :: rest) ?_ htry
          refine ⟨a, ha, rest.drop xs.length, ?_, ?_⟩
          · have hsplit : d :: rest = (d :: xs) ++ rest.drop xs.length := by
              rw [List.cons_append]
              exact congrArg _ hrest
            rw [hsplit]
            exact matchAtoms_of_prefix a _ _ hma
          · match hdrop : rest.drop xs.length with
            | [] => rfl
            | e :: r2 =>
              rw [hdrop] at hpost
              have hlen2 : xs.length + (e :: r2).length = rest.length := by
                conv_rhs => rw [hrest, hdrop]
                simp
              have hge : 1 ≤ f - xs.length := by
                simp only [List.length_cons] at hlen2
                omega
              match hf2 : f - xs.length, hge with
              | g + 1, _ =>
                rw [hf2] at hpost
                rw [removeAltsAux_word_ctx _ _ _ _ hlastw] at hpost
                rw [hpost] at hright
                simpa [boundaryAfter] using hright
        | p0 :: pre2, heq, hleft =>
          have heq1 : d :: removeAltsAux jqlKeywordAlts f (some d) rest =
              p0 :: (pre2 ++ (x :: xs) ++ post) := by simpa using heq
          rcases List.cons.injEq .. ▸ heq1 with ⟨rfl, heq2⟩
          apply ih rest (some d) hrlen
          refine ⟨pre2, x :: xs, post, heq2, htoks, ?_, hright⟩
          cases pre2 with
          | nil =>
            have : isWordChar d = false := by simpa using hleft
            simpa [prevBoundary] using this
          | cons q qre =>
            simpa using hleft
      · have hsome : tryAlts jqlKeywordAlts (d :: rest) = some (m, after) := by
          by_cases hpb : prevBoundary prev = true
          · rw [if_pos hpb] at htry; exact htry
          · rw [if_neg hpb] at htry; exact absurd htry (by simp)
        obtain ⟨happ, hmne, -, hwlast, hbafter⟩ := tryAlts_jql_spec hsome
        rw [removeAltsAux_step_some _ _ _ _ _ _ _ htry] at htok
        have halen : after.length ≤ f := by
          have : m.length + after.length = rest.length + 1 := by
            have := congrArg List.length happ
            simpa using this
          have hm1 : 1 ≤ m.length := by
            cases m with
            | nil => exact absurd rfl hmne
            | cons _ _ => simp
          omega
        obtain ⟨pre, tok, post, heq, htoks, hleft, hright⟩ := htok
        obtain ⟨x, xs, rfl, hxw, -, -⟩ := jql_token_shape htoks
        match pre, heq, hleft with
        | [], heq, hleft =>
          match after, hbafter, heq with
          | [], _, heq =>
            rw [removeAltsAux_nil] at heq
            simp at heq
          | e :: a2, hbafter, heq =>
            have hew : isWordChar e = false := by simpa [boundaryAfter] using hbafter
            match f, heq with
            | 0, heq => simp [removeAltsAux] at heq
            | g + 1, heq =>
              rw [removeAltsAux_word_ctx _ _ _ _ (hwlast d)] at heq
              have heq1 : e :: removeAltsAux jqlKeywordAlts g (some e) a2 =
                  x :: (xs ++ post) := by simpa using heq
              rcases List.cons.injEq .. ▸ heq1 with ⟨rfl, -⟩
              rw [hxw] at hew
              exact Bool.true_eq_false.mp hew
        | p0 :: pre2, heq, hleft =>
          exact ih after (some (m.getLastD d)) halen
            ⟨p0 :: pre2, x :: xs, post, heq, htoks, hleft, hright⟩

theorem isSpecialJql_not_word {c : Char} (h : isSpecialJql c = true) :
    isWordChar c = false := by
  have hx : (c.toNat = 92 ∨ c.toNat = 34) ∨ c.toNat = 39 := by
    simpa [isSpecialJql] using h
  simp [isWordChar, isUpperAZ, isLowerAZ, isDigit09]
  omega

theorem isPySpace_not_word {c : Char} (h : isPySpace c = true) :
    isWordChar c = false := by
  have hx : c.toNat = 32 ∨ (9 ≤ c.toNat ∧ c.toNat ≤ 13) := by
    simpa [isPySpace] using h
  simp [isWordChar, isUpperAZ, isLowerAZ, isDigit09]
  omega

theorem isPySpace_not_special {c : Char} (h : isPySpace c = true) :
    isSpecialJql c = false := by
  have hx : c.toNat = 32 ∨ (9 ≤ c.toNat ∧ c.toNat ≤ 13) := by
    simpa [isPySpace] using h
  simp [isSpecialJql]
  omega

theorem keyword_lower_not_special {x : Char} (h : isKeywordChar (lowerChar x) = true) :
    isSpecialJql x = false := by
  by_contra hs
  rw [Bool.not_eq_false] at hs
  have hx : (x.toNat = 92 ∨ x.toNat = 34) ∨ x.toNat = 39 := by
    simpa [isSpecialJql] using hs
  have hup : isUpperAZ x = false := by
    simp [isUpperAZ]
    omega
  rw [show lowerChar x = x by simp [lowerChar, hup]] at h
  have : 97 ≤ x.toNat ∧ x.toNat ≤ 122 ∨ x.toNat = 32 := by
    simpa [isKeywordChar, isLowerAZ] using h
  omega

theorem wellEscaped_bs (x : Char) (r : List Char) :
    wellEscaped ('\\' :: x :: r) = (isSpecialJql x && wellEscaped r) := rfl

theorem wellEscaped_cons_nonspecial {c : Char} (r : List Char)
    (h : isSpecialJql c = false) : wellEscaped (c :: r) = wellEscaped r := by
  have hc : ¬c = '\\' := by
    intro he
    subst he
    simp [isSpecialJql] at h
  conv_lhs => unfold wellEscaped
  rw [if_neg hc]
  simp [h]

theorem wellEscaped_inv_bs {rest : List Char} (h : wellEscaped ('\\' :: rest) = true) :
    ∃ c2 rest2, rest = c2 :: rest2 ∧ isSpecialJql c2 = true ∧ wellEscaped rest2 = true := by
  match rest, h with
  | [], h => simp [wellEscaped] at h
  | c2 :: rest2, h =>
    rw [wellEscaped_bs] at h
    simp only [Bool.and_eq_true] at h
    exact ⟨c2, rest2, rfl, h.1, h.2⟩

theorem wellEscaped_inv_cons {c : Char} {rest : List Char} (hc : ¬c = '\\')
    (h : wellEscaped (c :: rest) = true) :
    isSpecialJql c = false ∧ wellEscaped rest = true := by
  unfold wellEscaped at h
  rw [if_neg hc] at h
  simp only [Bool.and_eq_true, Bool.not_eq_true'] at h
  exact h

theorem wellEscaped_append_right :
    ∀ (pre after : List Char), wellEscaped (pre ++ after) = true →
      (∀ c ∈ pre, isSpecialJql c = false) → wellEscaped after = true := by
  intro pre
  induction pre with
  | nil => intro after h _; simpa using h
  | cons c t ih =>
    intro after h hns
    have hcs : isSpecialJql c = false := hns c (List.mem_cons_self c t)
    rw [List.cons_append, wellEscaped_cons_nonspecial _ hcs] at h
    exact ih after h (fun x hx => hns x (List.mem_cons_of_mem c hx))

theorem wellEscaped_append_left_aux :
    ∀ (n : Nat) (m t : List Char), m.length ≤ n → wellEscaped (m ++ t) = true →
      (∀ c ∈ t, isSpecialJql c = false) → wellEscaped m = true := by
  intro n
  induction n with
  | zero =>
    intro m t hlen _ _
    rw [List.eq_nil_of_length_eq_zero (Nat.le_zero.mp hlen)]
    rfl
  | succ n ih =>
    intro m t hlen h hns
    match m, hlen with
    | [], _ => rfl
    | c :: m2, hlen =>
      by_cases hc : c = '\\'
      · subst hc
        rw [List.cons_append] at h
        obtain ⟨c2, rest2, heq, hc2, hwe⟩ := wellEscaped_inv_bs h
        match m2, heq with
        | [], heq =>
          exfalso
          have : c2 ∈ t := by
            rw [List.nil_append] at heq
            rw [heq]
            simp
          rw [hns c2 this] at hc2
          exact Bool.false_eq_true.mp hc2
        | c2' :: m3, heq =>
          rcases List.cons.injEq .. ▸ (by simpa using heq :
              c2' :: (m3 ++ t) = c2 :: rest2) with ⟨rfl, hr2⟩
          rw [wellEscaped_bs, hc2, Bool.true_and]
          have hm3 : m3.length ≤ n := by
            simp at hlen
            omega
          exact ih m3 t hm3 (hr2 ▸ hwe) hns
      · rw [List.cons_append] at h
        obtain ⟨hcs, hwe⟩ := wellEscaped_inv_cons hc h
        rw [wellEscaped_cons_nonspecial _ hcs]
        have hm2 : m2.length ≤ n := by
          simp at hlen
          omega
        exact ih m2 t hm2 hwe hns

theorem escape_chain_cons (c : Char) (l : List Char) :
    escapeSquote (escapeDquote (escapeBackslash (c :: l))) =
      (if c = '\\' then ['\\', '\\']
       else if c = '"' then ['\\', '"']
       else if c = Char.ofNat 39 then ['\\', Char.ofNat 39]
       else [c]) ++ escapeSquote (escapeDquote (escapeBackslash l)) := by
  by_cases h1 : c = '\\'
  · subst h1
    simp [escapeBackslash, escapeDquote, escapeSquote, List.flatMap_append]
  · by_cases h2 : c = '"'
    · subst h2
      simp [escapeBackslash, escapeDquote, escapeSquote, List.flatMap_append]
    · by_cases h3 : c = Char.ofNat 39
      · subst h3
        simp [escapeBackslash, escapeDquote, escapeSquote, List.flatMap_append]
      · simp [escapeBackslash, escapeDquote, escapeSquote, List.flatMap_append, h1, h2, h3]

theorem wellEscaped_escapes :
    ∀ l, wellEscaped (escapeSquote (escapeDquote (escapeBackslash l))) = true := by
  intro l
  induction l with
  | nil => rfl
  | cons c rest ih =>
    rw [escape_chain_cons]
    split_ifs with h1 h2 h3
    · rw [List.cons_append, List.cons_append, List.nil_append, wellEscaped_bs]
      simpa [isSpecialJql] using ih
    · rw [List.cons_append, List.cons_append, List.nil_append, wellEscaped_bs]
      simpa [isSpecialJql] using ih
    · rw [List.cons_append, List.cons_append, List.nil_append, wellEscaped_bs]
      simpa [isSpecialJql] using ih
    · rw [List.cons_append, List.nil_append, wellEscaped_cons_nonspecial]
      · exact ih
      · have e1 : ¬c.toNat = 92 := fun he => h1 (char_eq_of_toNat he)
        have e2 : ¬c.toNat = 34 := fun he => h2 (char_eq_of_toNat he)
        have e3 : ¬c.toNat = 39 := fun he => h3 (char_eq_of_toNat he)
        simp [isSpecialJql, e1, e2, e3]

theorem wellEscaped_removeAltsAux_aux :
    ∀ (n fuel : Nat) (l : List Char) (prev : Option Char), fuel ≤ n →
      l.length ≤ fuel → wellEscaped l = true →
      wellEscaped (removeAltsAux jqlKeywordAlts fuel prev l) = true := by
  intro n
  induction n with
  | zero =>
    intro fuel l prev hf hlen _
    match fuel, hf, l, hlen with
    | 0, _, l, hlen =>
      rw [List.eq_nil_of_length_eq_zero (Nat.le_zero.mp hlen)]
      rfl
  | succ n ih =>
    intro fuel l prev hf hlen hwe
    match fuel, l, hlen with
    | fuel, [], _ => rw [removeAltsAux_nil]; rfl
    | 0, c :: rest, hlen => simp at hlen
    | f + 1, c :: rest, hlen =>
      by_cases hc : c = '\\'
      · subst hc
        have hnw : isWordChar '\\' = false := by decide
        have hnone : (if prevBoundary prev = true then
            tryAlts jqlKeywordAlts ('\\' :: rest) else none) = none := by
          by_cases hpb : prevBoundary prev = true
          · rw [if_pos hpb]
            exact tryAlts_jql_none_nonword rest hnw
          · rw [if_neg hpb]
        rw [removeAltsAux_step_none _ _ _ _ _ hnone]
        obtain ⟨c2, rest2, rfl, hc2, hwe2⟩ := wellEscaped_inv_bs hwe
        have hf1 : 1 ≤ f := by simp at hlen; omega
        match f, hf1 with
        | f2 + 1, _ =>
          have hnone2 : (if prevBoundary (some '\\') = true then
              tryAlts jqlKeywordAlts (c2 :: rest2) else none) = none := by
            rw [if_pos (by simp [prevBoundary, hnw])]
            exact tryAlts_jql_none_nonword rest2 (isSpecialJql_not_word hc2)
          rw [removeAltsAux_step_none _ _ _ _ _ hnone2]
          rw [wellEscaped_bs, hc2, Bool.true_and]
          apply ih f2 rest2 (some c2) (by omega) (by simp at hlen; omega) hwe2
      · obtain ⟨hcs, hwer⟩ := wellEscaped_inv_cons hc hwe
        rcases htry : (if prevBoundary prev = true then
            tryAlts jqlKeywordAlts (c :: rest) else none) with _ | ⟨m, after⟩
        · rw [removeAltsAux_step_none _ _ _ _ _ htry]
          rw [wellEscaped_cons_nonspecial _ hcs]
          apply ih f rest (some c) (by omega) (by simp at hlen; omega) hwer
        · have hsome : tryAlts jqlKeywordAlts (c :: rest) = some (m, after) := by
            by_cases hpb : prevBoundary prev = true
            · rw [if_pos hpb] at htry; exact htry
            · rw [if_neg hpb] at htry; exact absurd htry (by simp)
          obtain ⟨happ, hmne, hmchars, -, -⟩ := tryAlts_jql_spec hsome
          rw [removeAltsAux_step_some _ _ _ _ _ _ _ htry]
          have hweafter : wellEscaped after = true := by
            apply wellEscaped_append_right m after
            · rw [happ]; exact hwe
            · intro x hx
              exact keyword_lower_not_special (hmchars x hx)
          have halen : after.length ≤ f := by
            have hlens : m.length + after.length = rest.length + 1 := by
              have := congrArg List.length happ
              simpa using this
            have hm1 : 1 ≤ m.length := by
              cases m with
              | nil => exact absurd rfl hmne
              | cons _ _ => simp
            simp at hlen
            omega
          apply ih f after (some (m.getLastD c)) (by omega) halen hweafter

theorem pyStripList_split (l : List Char) :
    ∃ ws1 ws2, l = ws1 ++ pyStripList l ++ ws2 ∧
      (∀ c ∈ ws1, isPySpace c = true) ∧ (∀ c ∈ ws2, isPySpace c = true) := by
  refine ⟨l.takeWhile isPySpace,
    ((l.dropWhile isPySpace).reverse.takeWhile isPySpace).reverse, ?_, ?_, ?_⟩
  · unfold pyStripList
    conv_lhs => rw [← List.takeWhile_append_dropWhile isPySpace l]
    rw [List.append_assoc]
    congr 1
    calc l.dropWhile isPySpace
        = (l.dropWhile isPySpace).reverse.reverse := (List.reverse_reverse _).symm
      _ = ((l.dropWhile isPySpace).reverse.takeWhile isPySpace ++
            (l.dropWhile isPySpace).reverse.dropWhile isPySpace).reverse := by
          rw [List.takeWhile_append_dropWhile]
      _ = ((l.dropWhile isPySpace).reverse.dropWhile isPySpace).reverse ++
            ((l.dropWhile isPySpace).reverse.takeWhile isPySpace).reverse := by
          rw [List.reverse_append]
  · intro c hc
    exact List.mem_takeWhile_imp hc
  · intro c hc
    rw [List.mem_reverse] at hc
    exact List.mem_takeWhile_imp hc

theorem wellEscaped_pyStrip {l : List Char} (h : wellEscaped l = true) :
    wellEscaped (pyStripList l) = true := by
  obtain ⟨ws1, ws2, hsplit, h1, h2⟩ := pyStripList_split l
  rw [hsplit] at h
  have ha := wellEscaped_append_left_aux (ws1 ++ pyStripList l).length
    (ws1 ++ pyStripList l) ws2 le_rfl h (fun c hc => isPySpace_not_special (h2 c hc))
  exact wellEscaped_append_right ws1 _ ha (fun c hc => isPySpace_not_special (h1 c hc))

theorem removeAltsAux_subset (alts : List (List PatAtom)) :
    ∀ (fuel : Nat) (prev : Option Char) (l : List Char),
      ∀ c ∈ removeAltsAux alts fuel prev l, c ∈ l := by
  intro fuel
  induction fuel with
  | zero => intro prev l c hc; simp [removeAltsAux] at hc
  | succ f ih =>
    intro prev l c hc
    match l with
    | [] => rw [removeAltsAux_nil] at hc; simp at hc
    | d :: rest =>
      rcases htry : (if prevBoundary prev = true then
          tryAlts alts (d :: rest) else none) with _ | ⟨m, after⟩
      · rw [removeAltsAux_step_none _ _ _ _ _ htry] at hc
        rcases List.mem_cons.mp hc with rfl | hc2
        · exact List.mem_cons_self _ _
        · exact List.mem_cons_of_mem _ (ih (some d) rest c hc2)
      · have hsome : tryAlts alts (d :: rest) = some (m, after) := by
          by_cases hpb : prevBoundary prev = true
          · rw [if_pos hpb] at htry; exact htry
          · rw [if_neg hpb] at htry; exact absurd htry (by simp)
        obtain ⟨a, _, hm, htake, _⟩ := tryAlts_some_spec _ _ _ _ hsome
        obtain ⟨happ, _⟩ := matchAtoms_append a _ _ hm
        rw [removeAltsAux_step_some _ _ _ _ _ _ _ htry] at hc
        have : c ∈ after := ih _ after c hc
        rw [happ]
        exact List.mem_append_right _ this

theorem mem_escapeBackslash {c : Char} {l : List Char} (h : c ∈ escapeBackslash l) :
    c ∈ l ∨ c = '\\' := by
  unfold escapeBackslash at h
  rcases List.mem_flatMap.mp h with ⟨x, hx, hcx⟩
  by_cases hb : x = '\\'
  · rw [if_pos hb] at hcx
    simp at hcx
    right
    rw [hcx]
  · rw [if_neg hb] at hcx
    simp at hcx
    left
    rw [hcx]
    exact hx

theorem mem_escapeDquote {c : Char} {l : List Char} (h : c ∈ escapeDquote l) :
    c ∈ l ∨ c = '\\' := by
  unfold escapeDquote at h
  rcases List.mem_flatMap.mp h with ⟨x, hx, hcx⟩
  by_cases hb : x = '"'
  · rw [if_pos hb] at hcx
    rcases List.mem_cons.mp hcx with rfl | hcx2
    · right; rfl
    · left
      simp at hcx2
      rw [hcx2, ← hb]
      exact hx
  · rw [if_neg hb] at hcx
    simp at hcx
    left
    rw [hcx]
    exact hx

theorem mem_escapeSquote {c : Char} {l : List Char} (h : c ∈ escapeSquote l) :
    c ∈ l ∨ c = '\\' := by
  unfold escapeSquote at h
  rcases List.mem_flatMap.mp h with ⟨x, hx, hcx⟩
  by_cases hb : x = Char.ofNat 39
  · rw [if_pos hb] at hcx
    rcases List.mem_cons.mp hcx with rfl | hcx2
    · right; rfl
    · left
      simp at hcx2
      rw [hcx2, ← hb]
      exact hx
  · rw [if_neg hb] at hcx
    simp at hcx
    left
    rw [hcx]
    exact hx

theorem mem_pyStripList {c : Char} {l : List Char} (h : c ∈ pyStripList l) : c ∈ l := by
  obtain ⟨ws1, ws2, hsplit, _, _⟩ := pyStripList_split l
  rw [hsplit]
  exact List.mem_append_left _ (List.mem_append_right _ h)

theorem sanitize_no_control (s : String) :
    ∀ c ∈ (sanitizeJqlText s).data, isControlChar c = false := by
  intro c hc
  have h1 : c ∈ removeJqlKeywords (escapeSquote (escapeDquote (escapeBackslash
      (s.data.filter (fun c => !isControlChar c))))) := mem_pyStripList hc
  have h2 := removeAltsAux_subset jqlKeywordAlts _ none _ c h1
  rcases mem_escapeSquote h2 with h3 | rfl
  · rcases mem_escapeDquote h3 with h4 | rfl
    · rcases mem_escapeBackslash h4 with h5 | rfl
      · have := List.of_mem_filter h5
        simpa using this
      · decide
    · decide
  · decide

theorem token_claim_to_jql {ctx : Option Char} {l : List Char}
    (h : HasStandaloneAlt claimKeywordAlts ctx l) :
    HasStandaloneAlt jqlKeywordAlts ctx l := by
  obtain ⟨pre, tok, post, heq, ⟨a, ha, hm⟩, hleft, hright⟩ := h
  exact ⟨pre, tok, post, heq, ⟨a, List.mem_of_mem_take ha, hm⟩, hleft, hright⟩

theorem token_lift_strip {l : List Char}
    (h : HasStandaloneAlt jqlKeywordAlts none (pyStripList l)) :
    HasStandaloneAlt jqlKeywordAlts none l := by
  obtain ⟨ws1, ws2, hsplit, h1, h2⟩ := pyStripList_split l
  obtain ⟨pre, tok, post, heq, htoks, hleft, hright⟩ := h
  refine ⟨ws1 ++ pre, tok, post ++ ws2, ?_, htoks, ?_, ?_⟩
  · rw [hsplit, heq]
    simp [List.append_assoc]
  · match hp : pre, hleft with
    | [], hleft =>
      rw [List.append_nil]
      match hws : ws1, h1 with
      | [], _ => simpa using hleft
      | w :: ws1', h1 =>
        have hlast : ∀ d, (w :: ws1').getLastD d = ws1'.getLastD w := fun d =>
          List.getLastD_cons ..
        rcases hgl : (w :: ws1').getLast? with _ | q
        · simp [List.getLast?_eq_none_iff] at hgl
        · have hq : q ∈ w :: ws1' := List.mem_of_mem_getLast? (by rw [hgl]; rfl)
          simp only [hgl]
          rw [isPySpace_not_word (h1 q hq)]
          rfl
    | p0 :: pre2, hleft =>
      have : (ws1 ++ p0 :: pre2).getLast? = (p0 :: pre2).getLast? := by
        rw [List.getLast?_append_of_ne_nil]
        simp
      simp only [this]
      exact hleft
  · match hpo : post, hright with
    | [], _ =>
      rw [List.nil_append]
      match hws : ws2, h2 with
      | [], _ => rfl
      | w :: ws2', h2 =>
        show (!isWordChar w) = true
        rw [isPySpace_not_word (h2 w (List.mem_cons_self ..))]
        rfl
    | q0 :: post2, hright =>
      simpa [boundaryAfter] using hright

/-- C8: for every input string, the output of `_sanitize_jql_text`
contains no control characters, every surviving quote/backslash is part of
an escape pair (no unescaped quote or backslash), and no standalone
word-boundary-delimited occurrence of the query-language keywords AND, OR,
NOT, ORDER BY, IN, IS remains (case-insensitively). -/
theorem sanitize_jql_spec (s : String) :
    ((sanitizeJqlText s).data.all (fun c => !isControlChar c) = true) ∧
    wellEscaped (sanitizeJqlText s).data = true ∧
    ¬HasStandaloneAlt claimKeywordAlts none (sanitizeJqlText s).data := by
  refine ⟨?_, ?_, ?_⟩
  · rw [List.all_eq_true]
    intro c hc
    rw [sanitize_no_control s c hc]
    rfl
  · show wellEscaped (pyStripList (removeJqlKeywords _)) = true
    apply wellEscaped_pyStrip
    unfold removeJqlKeywords
    apply wellEscaped_removeAltsAux_aux _ _ _ _ le_rfl le_rfl
    exact wellEscaped_escapes _
  · intro h
    have h4 := token_lift_strip (token_claim_to_jql h)
    unfold removeJqlKeywords at h4
    exact no_standalone_removeAlts _ _ none le_rfl h4
